import Mathlib

/-!
Verification of the ninja2bazel repository against its specification.

The Python sources are shallowly embedded: every function under scrutiny is
translated into an executable Lean definition that mirrors the control flow of
the source (src/helpers.py, src/bazel.py, src/build.py, src/ninjabuild.py,
src/cppfileparser.py).  Python strings are modelled by Lean `String`
(lists of characters compared by code point), Python lists by `List`,
Python sets by `Finset` or by lists where iteration order matters, Python
dicts by association lists, and the filesystem and process side effects by
explicit oracle parameters and event traces.  A raised Python exception is
modelled by an `Option`-valued result being `none`.
-/

namespace N2B

/-! ## Python string primitives

Executable models of the Python `str` operations used by the sources.
All are structurally recursive so that concrete instances reduce in the
kernel. -/

/-- Boolean contiguous-substring test on character lists. -/
def listInfix (needle : List Char) : List Char → Bool
  | [] => needle.isEmpty
  | h :: t => needle.isPrefixOf (h :: t) || listInfix needle t

/-- Python membership test `needle in hay` (contiguous substring). -/
def pySubstr (hay needle : String) : Bool :=
  listInfix needle.data hay.data

/-- Python `s.startswith(p)`. -/
def pyStartsWith (s p : String) : Bool :=
  p.data.isPrefixOf s.data

/-- Python `s.endswith(p)`. -/
def pyEndsWith (s p : String) : Bool :=
  p.data.isSuffixOf s.data

/-- Python `s[n:]`. -/
def pyDrop (s : String) (n : Nat) : String :=
  (s.data.drop n).asString

/-- Characters treated as whitespace by Python `str.strip` (ASCII model). -/
def isPySpace (c : Char) : Bool :=
  c = ' ' || c = '\t' || c = '\n' || c = '\r' || c = '\x0b' || c = '\x0c'

/-- Python `s.strip()`. -/
def pyStrip (s : String) : String :=
  (((s.data.dropWhile isPySpace).reverse.dropWhile isPySpace).reverse).asString

/-- Worker for `pySplit`; fuel-indexed so that it is structurally recursive
and reduces in the kernel.  The fuel is always instantiated with the length
of the scanned list, which suffices because each step consumes at least one
character. -/
def pySplitGo (sep : List Char) : Nat → List Char → List Char → List (List Char)
  | _, acc, [] => [acc.reverse]
  | 0, acc, cs => [acc.reverse ++ cs]
  | Nat.succ f, acc, c :: cs =>
    if sep.isPrefixOf (c :: cs) then
      acc.reverse :: pySplitGo sep f [] ((c :: cs).drop sep.length)
    else
      pySplitGo sep f (c :: acc) cs

/-- Python `s.split(sep)` for a non-empty separator: leftmost-first,
non-overlapping.  Python raises `ValueError` on an empty separator; the
sources never pass one, and the model returns `[s]` in that case. -/
def pySplit (s sep : String) : List String :=
  if sep.isEmpty then [s]
  else (pySplitGo sep.data s.data.length [] s.data).map List.asString

/-- Python `s.replace(old, new)` (all occurrences, leftmost, non-overlapping;
for an empty pattern Python interleaves `new` around every character). -/
def pyReplace (s old new : String) : String :=
  if old.isEmpty then
    new ++ String.join (s.data.map (fun c => String.singleton c ++ new))
  else
    String.intercalate new (pySplit s old)

/-- Python lexicographic `<` on strings, by code point. -/
def lexLt : List Char → List Char → Bool
  | [], [] => false
  | [], _ :: _ => true
  | _ :: _, [] => false
  | a :: as, b :: bs =>
    if a < b then true else if b < a then false else lexLt as bs

/-- Python `s[0]` (the sources only evaluate it on non-empty strings;
the default is irrelevant there). -/
def firstChar (s : String) : Char :=
  s.data.headD 'A'

/-- Lookup in a Python dict modelled as an association list
(`d.get(k)`). -/
def envGet (env : List (String × String)) (k : String) : Option String :=
  (env.find? (fun p => p.1 = k)).map Prod.snd

/-- Python `d.get(k, default)`. -/
def envGetD (env : List (String × String)) (k d : String) : String :=
  (envGet env k).getD d

/-! ## helpers.resolvePath (claim C10)

Faithful embedding of `resolvePath` from src/helpers.py.  Note that the
source executes `dest.remove(dest[-1])` for a `..` segment; Python
`list.remove` deletes the first element equal to its argument, which is the
last element only when that value does not occur earlier in `dest`. -/

/-- Python `list.remove(x)`: drop the first element equal to `x`. -/
def pyRemoveFirst : List String → String → List String
  | [], _ => []
  | a :: rest, x => if a = x then rest else a :: pyRemoveFirst rest x

/-- One iteration of the loop in `resolvePath`: state is `(dest, cur)`,
input is `(i, p)` from `enumerate(split)`. -/
def resolvePathStep (acc : List String × Nat) (ip : Nat × String) :
    List String × Nat :=
  let dest := acc.1
  let cur := acc.2
  let i := ip.1
  let p := ip.2
  if p.length = 0 && decide (i > 0) then acc
  else if p = "." then acc
  else if p = ".." then
    if cur > 0 then (pyRemoveFirst dest (dest.getLastD ""), cur - 1)
    else acc
  else (dest ++ [p], cur + 1)

/-- `helpers.resolvePath` (os.path.sep is `/`). -/
def resolvePath (path : String) : String :=
  let split := pySplit path "/"
  String.intercalate "/" (split.enum.foldl resolvePathStep ([], 0)).1

/-! ## bazel.compare_deps and rendering (claims C2, C8) -/

/-- `bazel._getPrefix`: prefix for a dependency with location `dLoc`
rendered inside a stanza at location `loc`. -/
def getPrefixFor (dLoc loc : String) : String :=
  if pyStartsWith dLoc "@" then dLoc
  else if pyStartsWith dLoc "//" then dLoc
  else if dLoc ≠ loc then "//" ++ dLoc else ""

/-- `BaseBazelTarget.targetName`: prepend `:` unless already present. -/
def targetName (name : String) : String :=
  if pyStartsWith name ":" then name else ":" ++ name

/-- The string compared by `compare_deps` for one dependency:
`_getPrefix(d) + d.targetName()`. -/
def renderDep (dLoc dName loc : String) : String :=
  getPrefixFor dLoc loc ++ targetName dName

/-- `bazel.compare_deps` on the rendered strings.  The Python comparisons
`a > b` are code-point lexicographic, modelled by `lexLt`. -/
def compare_deps (a b : String) : Int :=
  if firstChar a = firstChar b then
    if a = b then 0
    else if lexLt b.data a.data then 1
    else -1
  else if firstChar a = ':' then -1
  else if firstChar b = ':' then 1
  else if firstChar b = '@' then 1
  else if firstChar a = '@' then -1
  else 0

/-- A rendered dependency reference: starts with `:`, `@` or `/`. -/
def validDep (s : String) : Prop :=
  firstChar s = ':' ∨ firstChar s = '@' ∨ firstChar s = '/'

instance (s : String) : Decidable (validDep s) := by
  unfold validDep; infer_instance

/-- Class rank actually implemented by `compare_deps`:
same-directory, then external, then source-tree. -/
def depClass (s : String) : Nat :=
  if firstChar s = ':' then 0 else if firstChar s = '@' then 1 else 2

/-! ### Order lemmas for the code-point lexicographic comparison -/

theorem lexLt_cons (a b : Char) (as bs : List Char) :
    lexLt (a :: as) (b :: bs) =
      if a < b then true else if b < a then false else lexLt as bs := rfl

theorem lexLt_irrefl : ∀ l : List Char, lexLt l l = false
  | [] => rfl
  | a :: as => by
    rw [lexLt_cons, if_neg (lt_irrefl a), if_neg (lt_irrefl a)]
    exact lexLt_irrefl as

theorem lexLt_trans : ∀ a b c : List Char,
    lexLt a b = true → lexLt b c = true → lexLt a c = true
  | a, [], _ => by
    intro h
    exact absurd h (by cases a <;> simp [lexLt])
  | _ :: _, _ :: _, [] => by intro _ h; exact absurd h (by simp [lexLt])
  | [], _ :: _, [] => by intro _ h; exact absurd h (by simp [lexLt])
  | [], b :: bs, c :: cs => by intro _ _; rfl
  | a :: as, b :: bs, c :: cs => by
    rw [lexLt_cons, lexLt_cons, lexLt_cons]
    rcases lt_trichotomy a b with hab | hab | hab <;>
      rcases lt_trichotomy b c with hbc | hbc | hbc
    · rw [if_pos hab, if_pos hbc, if_pos (lt_trans hab hbc)]; intro _ _; rfl
    · subst hbc; rw [if_pos hab, if_pos hab]; intro _ _; rfl
    · rw [if_neg (lt_asymm hbc), if_pos hbc]
      intro _ hcon; exact absurd hcon (by decide)
    · subst hab; rw [if_pos hbc, if_pos hbc]; intro _ _; rfl
    · subst hab; subst hbc
      rw [if_neg (lt_irrefl a), if_neg (lt_irrefl a), if_neg (lt_irrefl a),
        if_neg (lt_irrefl a), if_neg (lt_irrefl a), if_neg (lt_irrefl a)]
      exact lexLt_trans as bs cs
    · rw [if_neg (lt_asymm hbc), if_pos hbc]
      intro _ hcon; exact absurd hcon (by decide)
    · rw [if_neg (lt_asymm hab), if_pos hab]
      intro hcon; exact absurd hcon (by decide)
    · subst hbc
      rw [if_neg (lt_asymm hab), if_pos hab]
      intro hcon; exact absurd hcon (by decide)
    · rw [if_neg (lt_asymm hab), if_pos hab]
      intro hcon; exact absurd hcon (by decide)

theorem lexLt_asymm (a b : List Char) (h : lexLt a b = true) :
    lexLt b a = false := by
  rcases hba : lexLt b a with _ | _
  · rfl
  · have hcon := lexLt_trans a b a h hba
    rw [lexLt_irrefl] at hcon
    exact absurd hcon (by decide)

theorem lexLt_total : ∀ a b : List Char,
    lexLt a b = false → lexLt b a = false → a = b
  | [], [] => fun _ _ => rfl
  | [], _ :: _ => by intro h; exact absurd h (by simp [lexLt])
  | _ :: _, [] => by intro _ h; exact absurd h (by simp [lexLt])
  | a :: as, b :: bs => by
    rw [lexLt_cons, lexLt_cons]
    rcases lt_trichotomy a b with h | h | h
    · rw [if_pos h]; intro hcon; exact absurd hcon (by decide)
    · subst h
      rw [if_neg (lt_irrefl a), if_neg (lt_irrefl a), if_neg (lt_irrefl a),
        if_neg (lt_irrefl a)]
      intro h1 h2
      rw [lexLt_total as bs h1 h2]
    · rw [if_neg (lt_asymm h), if_pos h, if_pos h]
      intro _ hcon; exact absurd hcon (by decide)

/-! ### Characterization of compare_deps -/

theorem compare_deps_same {a b : String} (h : firstChar a = firstChar b) :
    compare_deps a b =
      if a = b then 0 else if lexLt b.data a.data then 1 else -1 := by
  unfold compare_deps
  rw [if_pos h]

theorem depClass_eq_of_firstChar {a b : String}
    (h : firstChar a = firstChar b) : depClass a = depClass b := by
  simp [depClass, h]

theorem compare_deps_same_vals {a b : String} (h : firstChar a = firstChar b) :
    (a = b ∧ compare_deps a b = 0) ∨
    (lexLt a.data b.data = true ∧ compare_deps a b = -1) ∨
    (lexLt b.data a.data = true ∧ compare_deps a b = 1) := by
  by_cases hab : a = b
  · exact Or.inl ⟨hab, by rw [compare_deps_same h, if_pos hab]⟩
  · rcases hlex : lexLt b.data a.data with _ | _
    · refine Or.inr (Or.inl ⟨?_, ?_⟩)
      · rcases h2 : lexLt a.data b.data with _ | _
        · exact absurd (String.ext (lexLt_total _ _ h2 hlex)) hab
        · rfl
      · rw [compare_deps_same h, if_neg hab]
        simp [hlex]
    · refine Or.inr (Or.inr ⟨rfl, ?_⟩)
      rw [compare_deps_same h, if_neg hab]
      simp [hlex]

theorem compare_deps_cross {a b : String} (ha : validDep a) (hb : validDep b)
    (h : firstChar a ≠ firstChar b) :
    (compare_deps a b = -1 ↔ depClass a < depClass b) ∧
    (compare_deps a b = 1 ↔ depClass b < depClass a) ∧
    compare_deps a b ≠ 0 := by
  rcases ha with h1 | h1 | h1 <;> rcases hb with h2 | h2 | h2 <;>
    simp_all [compare_deps, depClass]

theorem compare_deps_eq_neg_one {a b : String}
    (ha : validDep a) (hb : validDep b) :
    compare_deps a b = -1 ↔
      (depClass a < depClass b ∨
        (firstChar a = firstChar b ∧ lexLt a.data b.data = true)) := by
  rcases eq_or_ne (firstChar a) (firstChar b) with hfc | hfc
  · rw [depClass_eq_of_firstChar hfc]
    simp only [lt_irrefl, false_or, hfc, true_and]
    rcases compare_deps_same_vals hfc with ⟨he, hv⟩ | ⟨hl, hv⟩ | ⟨hl, hv⟩
    · subst he
      rw [hv, lexLt_irrefl]
      constructor
      · intro hcon; exact absurd hcon (by decide)
      · intro hcon; exact absurd hcon (by decide)
    · rw [hv, hl]; simp
    · rw [hv, lexLt_asymm _ _ hl]
      constructor
      · intro hcon; exact absurd hcon (by decide)
      · intro hcon; exact absurd hcon (by decide)
  · have hcl := compare_deps_cross ha hb hfc
    rw [hcl.1]
    simp [hfc]

theorem compare_deps_eq_zero {a b : String}
    (ha : validDep a) (hb : validDep b) :
    compare_deps a b = 0 ↔ a = b := by
  rcases eq_or_ne (firstChar a) (firstChar b) with hfc | hfc
  · rcases compare_deps_same_vals hfc with ⟨he, hv⟩ | ⟨hl, hv⟩ | ⟨hl, hv⟩
    · subst he; simp [hv]
    · rw [hv]
      constructor
      · intro hcon; exact absurd hcon (by decide)
      · intro he; subst he; rw [lexLt_irrefl] at hl
        exact absurd hl (by decide)
    · rw [hv]
      constructor
      · intro hcon; exact absurd hcon (by decide)
      · intro he; subst he; rw [lexLt_irrefl] at hl
        exact absurd hl (by decide)
  · have hne : a ≠ b := fun he => hfc (by rw [he])
    simp [(compare_deps_cross ha hb hfc).2.2, hne]

theorem compare_deps_vals (a b : String) :
    compare_deps a b = -1 ∨ compare_deps a b = 0 ∨ compare_deps a b = 1 := by
  unfold compare_deps
  split_ifs <;> simp

theorem depClass_ne_of_firstChar {a b : String}
    (ha : validDep a) (hb : validDep b) (h : firstChar a ≠ firstChar b) :
    depClass a ≠ depClass b := by
  rcases ha with h1 | h1 | h1 <;> rcases hb with h2 | h2 | h2 <;>
    simp_all [depClass]

theorem compare_deps_antisymm {a b : String}
    (ha : validDep a) (hb : validDep b) :
    compare_deps a b = - compare_deps b a := by
  rcases eq_or_ne (firstChar a) (firstChar b) with hfc | hfc
  · rcases compare_deps_same_vals hfc with ⟨he, hv⟩ | ⟨hl, hv⟩ | ⟨hl, hv⟩
    · subst he
      rw [hv]
      decide
    · rw [hv]
      rcases compare_deps_same_vals hfc.symm with ⟨he, hv2⟩ | ⟨hl2, hv2⟩ |
          ⟨hl2, hv2⟩
      · subst he; rw [lexLt_irrefl] at hl; exact absurd hl (by decide)
      · rw [lexLt_asymm _ _ hl] at hl2; exact absurd hl2 (by decide)
      · rw [hv2]
    · rw [hv]
      rcases compare_deps_same_vals hfc.symm with ⟨he, hv2⟩ | ⟨hl2, hv2⟩ |
          ⟨hl2, hv2⟩
      · subst he; rw [lexLt_irrefl] at hl; exact absurd hl (by decide)
      · rw [hv2]; decide
      · rw [lexLt_asymm _ _ hl] at hl2; exact absurd hl2 (by decide)
  · have h1 := compare_deps_cross ha hb hfc
    have h2 := compare_deps_cross hb ha (Ne.symm hfc)
    rcases Nat.lt_or_ge (depClass a) (depClass b) with hlt | hge
    · rw [h1.1.mpr hlt, h2.2.1.mpr hlt]
    · have hlt : depClass b < depClass a :=
        lt_of_le_of_ne hge (fun he => depClass_ne_of_firstChar ha hb hfc he.symm)
      rw [h1.2.1.mpr hlt, h2.1.mpr hlt]
      decide

theorem firstChar_eq_of_depClass {a b : String}
    (ha : validDep a) (hb : validDep b) (h : depClass a = depClass b) :
    firstChar a = firstChar b := by
  rcases ha with h1 | h1 | h1 <;> rcases hb with h2 | h2 | h2 <;>
    simp_all [depClass]

theorem compare_deps_trans {a b c : String}
    (ha : validDep a) (hb : validDep b) (hc : validDep c)
    (h1 : compare_deps a b = -1) (h2 : compare_deps b c = -1) :
    compare_deps a c = -1 := by
  rw [compare_deps_eq_neg_one ha hb] at h1
  rw [compare_deps_eq_neg_one hb hc] at h2
  rw [compare_deps_eq_neg_one ha hc]
  rcases h1 with h1 | ⟨hf1, hl1⟩ <;> rcases h2 with h2 | ⟨hf2, hl2⟩
  · exact Or.inl (lt_trans h1 h2)
  · exact Or.inl (by rw [depClass_eq_of_firstChar hf2] at h1; exact h1)
  · exact Or.inl (by rw [depClass_eq_of_firstChar hf1]; exact h2)
  · exact Or.inr ⟨hf1.trans hf2, lexLt_trans _ _ _ hl1 hl2⟩

/-! ### Rendered references are valid comparator inputs -/

theorem isPrefixOf_cons_headD {c : Char} {cs l : List Char}
    (h : List.isPrefixOf (c :: cs) l = true) : l.headD 'A' = c := by
  cases l with
  | nil => simp [List.isPrefixOf] at h
  | cons b bs =>
    simp only [List.isPrefixOf, Bool.and_eq_true, beq_iff_eq] at h
    simp [h.1]

theorem firstChar_append_left {s t : String} (h : s.data ≠ []) :
    firstChar (s ++ t) = firstChar s := by
  cases hd : s.data with
  | nil => exact absurd hd h
  | cons c r => simp [firstChar, String.data_append, hd]

theorem validDep_renderDep (dLoc dName loc : String) :
    validDep (renderDep dLoc dName loc) := by
  unfold renderDep getPrefixFor
  split_ifs with h1 h2 h3
  · have hc : dLoc.data.headD 'A' = '@' := isPrefixOf_cons_headD h1
    have hne : dLoc.data ≠ [] := by
      intro hd
      unfold pyStartsWith at h1
      rw [hd] at h1
      exact absurd h1 (by decide)
    right; left
    rw [firstChar_append_left hne]
    exact hc
  · have hc : dLoc.data.headD 'A' = '/' := isPrefixOf_cons_headD h2
    have hne : dLoc.data ≠ [] := by
      intro hd
      unfold pyStartsWith at h2
      rw [hd] at h2
      exact absurd h2 (by decide)
    right; right
    rw [firstChar_append_left hne]
    exact hc
  · right; right
    rw [firstChar_append_left (s := "//" ++ dLoc) (by simp [String.data_append]),
      firstChar_append_left (s := ("//" : String)) (by decide)]
    rfl
  · have hfc : firstChar ("" ++ targetName dName) = firstChar (targetName dName) := by
      simp [firstChar, String.data_append]
    left
    rw [hfc]
    unfold targetName
    split_ifs with h4
    · exact isPrefixOf_cons_headD h4
    · rw [firstChar_append_left (s := (":" : String)) (by decide)]
      rfl

/-! ### Claim theorems for the dependency comparator -/

/-- Claim C8 (confirmed).  On rendered dependency references (strings whose
first character is one of `:`, `@`, `/`), the comparator `compare_deps` is a
total order: it always returns one of -1, 0, 1; it is antisymmetric
(`compare_deps a b = -compare_deps b a`); it returns 0 exactly on equal
rendered strings; and the induced strict relation is transitive. -/
theorem compare_deps_total_order (a b c : String)
    (ha : validDep a) (hb : validDep b) (hc : validDep c) :
    (compare_deps a b = -1 ∨ compare_deps a b = 0 ∨ compare_deps a b = 1) ∧
    compare_deps a b = - compare_deps b a ∧
    (compare_deps a b = 0 ↔ a = b) ∧
    (compare_deps a b = -1 → compare_deps b c = -1 → compare_deps a c = -1) :=
  ⟨compare_deps_vals a b, compare_deps_antisymm ha hb,
    compare_deps_eq_zero ha hb, fun h1 h2 => compare_deps_trans ha hb hc h1 h2⟩

/-- Witness for C8 at concrete rendered references. -/
theorem compare_deps_total_order_witness :
    (compare_deps ":a" "@b//:z" = -1 ∨ compare_deps ":a" "@b//:z" = 0 ∨
      compare_deps ":a" "@b//:z" = 1) ∧
    compare_deps ":a" "@b//:z" = - compare_deps "@b//:z" ":a" ∧
    (compare_deps ":a" "@b//:z" = 0 ↔ (":a" : String) = "@b//:z") ∧
    (compare_deps ":a" "@b//:z" = -1 → compare_deps "@b//:z" "//p:q" = -1 →
      compare_deps ":a" "//p:q" = -1) :=
  compare_deps_total_order ":a" "@b//:z" "//p:q" (by decide) (by decide)
    (by decide)

/-- Claim C2 counterexample.  The claim states that source-tree references
(leading `//`) sort before external references (leading `@`).  In the code,
comparing a `//` reference against an `@` reference returns 1, so the `@`
reference sorts first: the claimed class order `:`, `//`, `@` is wrong. -/
theorem compare_deps_claim_counterexample :
    compare_deps "//lib:a" "@zlib//:z" = 1 ∧
    compare_deps "@zlib//:z" "//lib:a" = -1 := by decide

/-- Claim C2 as amended (proved).  Every rendered dependency reference starts
with `:`, `@` or `/`, and `compare_deps` sorts them by class — same-directory
(`:`) first, then external (`@`), then source-tree (`//`) — with code-point
lexicographic order inside each class. -/
theorem compare_deps_class_order :
    (∀ dLoc dName loc, validDep (renderDep dLoc dName loc)) ∧
    (∀ a b : String, validDep a → validDep b →
      (depClass a < depClass b → compare_deps a b = -1) ∧
      (depClass a = depClass b →
        (compare_deps a b = -1 ↔ lexLt a.data b.data = true))) := by
  refine ⟨validDep_renderDep, fun a b ha hb => ⟨fun hlt => ?_, fun heq => ?_⟩⟩
  · exact (compare_deps_eq_neg_one ha hb).mpr (Or.inl hlt)
  · rw [compare_deps_eq_neg_one ha hb]
    have hfc := firstChar_eq_of_depClass ha hb heq
    simp [heq, hfc]

/-- Witness for the amended C2 at concrete references:
a same-directory ref sorts before an external ref. -/
theorem compare_deps_class_order_witness :
    (depClass ":a" < depClass "@zlib//:z" →
      compare_deps ":a" "@zlib//:z" = -1) ∧
    (depClass ":a" = depClass "@zlib//:z" →
      (compare_deps ":a" "@zlib//:z" = -1 ↔
        lexLt (":a" : String).data ("@zlib//:z" : String).data = true)) :=
  compare_deps_class_order.2 ":a" "@zlib//:z" (by decide) (by decide)

/-! ### Claim theorem for resolvePath (C10) -/

/-- Claim C10 (code bug).  The claim says a `..` segment cancels exactly the
immediately preceding remaining segment, which on `a/b/a/../c` would give
`a/b/c`.  The code instead runs `dest.remove(dest[-1])`, which removes the
first occurrence of the value of the last segment, producing `b/a/c`. -/
theorem resolvePath_failing_input :
    resolvePath "a/b/a/../c" = "b/a/c" ∧ ("b/a/c" : String) ≠ "a/b/c" := by
  decide

/-! ## bazel.BaseBazelTarget equality and hashing (claim C9)

The class carries mutable containers (hdrs, deps, ...) that play no role in
equality or hashing; only the fields read by the dunder methods are
modelled.  Python `__eq__` compares names; `__hash__` hashes the string
`self.type + self.name`.  Since the Python string hash itself is an opaque
(per-process randomized) function, it is modelled by the string it is
applied to. -/

structure BaseBazelTarget where
  type : String
  name : String
  location : String

/-- Python `BaseBazelTarget.__eq__` (the other operand is also a target). -/
def targetBeq (a b : BaseBazelTarget) : Bool :=
  a.name == b.name

/-- The string passed to `hash` by `BaseBazelTarget.__hash__`. -/
def targetHashKey (t : BaseBazelTarget) : String :=
  t.type ++ t.name

/-- Claim C9 counterexample.  Two targets with equal names but different
type strings compare equal, yet their hash inputs differ: the hash is not
determined by the name alone. -/
theorem targetHash_counterexample :
    targetBeq ⟨"cc_library", "x", "p"⟩ ⟨"genrule", "x", "p"⟩ = true ∧
    targetHashKey ⟨"cc_library", "x", "p"⟩ ≠
      targetHashKey ⟨"genrule", "x", "p"⟩ := by decide

/-- Claim C9 as amended (proved).  Equality of targets holds exactly on
equal names; the hash input is determined by the pair (type, name), so two
equal targets of the same type feed the same string to the hash. -/
theorem targetBeq_hashKey (a b : BaseBazelTarget) :
    (targetBeq a b = true ↔ a.name = b.name) ∧
    (a.type = b.type → targetBeq a b = true →
      targetHashKey a = targetHashKey b) := by
  refine ⟨by simp [targetBeq], fun ht he => ?_⟩
  have hn : a.name = b.name := by simpa [targetBeq] using he
  simp [targetHashKey, ht, hn]

/-- Witness for the amended C9. -/
theorem targetBeq_hashKey_witness :
    (targetBeq ⟨"cc_library", "x", "p"⟩ ⟨"cc_library", "x", "q"⟩ = true ↔
      ("x" : String) = "x") ∧
    (("cc_library" : String) = "cc_library" →
      targetBeq ⟨"cc_library", "x", "p"⟩ ⟨"cc_library", "x", "q"⟩ = true →
      targetHashKey ⟨"cc_library", "x", "p"⟩ =
        targetHashKey ⟨"cc_library", "x", "q"⟩) :=
  targetBeq_hashKey ⟨"cc_library", "x", "p"⟩ ⟨"cc_library", "x", "q"⟩

/-! ## build.Build._getProtoName (claim C5)

The class-level dict `Build._protoNames` maps a cleaned proto path to the
chosen short name.  The claim quantifies over cleaned proto paths, so the
embedding starts after the extension/CMakeFiles/location normalization: a
call looks the cleaned name up, and otherwise picks the first suffix-join
(file name, then one more ancestor directory at a time) that is not among
the values already assigned, then records it.  A run of calls is a fold
over the mutable dict, which is modelled as an association list. -/

/-- The candidate names tried by `_getProtoName`, shortest suffix first:
the entries of `"_".join(arr[i:])` for `i = -1, -2, ..., -len(arr)`. -/
def protoCandidates (name : String) : List String :=
  let arr := pySplit name "/"
  (List.range arr.length).map
    (fun k => String.intercalate "_" (arr.drop (arr.length - (k + 1))))

/-- One call of `Build._getProtoName` at the cleaned-name stage: returns
the chosen name (`none` models the `assert False` when every candidate is
taken) and the updated `_protoNames` table. -/
def getProtoName (m : List (String × String)) (name : String) :
    Option String × List (String × String) :=
  match envGet m name with
  | some v => (some v, m)
  | none =>
    match (protoCandidates name).find?
        (fun f => !((m.map Prod.snd).contains f)) with
    | some f => (some f, m ++ [(name, f)])
    | none => (none, m)

/-- A sequence of `_getProtoName` calls threaded through the table. -/
def runProtoNames (m : List (String × String)) (ns : List String) :
    List (String × String) :=
  ns.foldl (fun acc n => (getProtoName acc n).2) m

/-- Keys and values of the proto-name table are each duplicate-free. -/
def protoInv (m : List (String × String)) : Prop :=
  (m.map Prod.fst).Nodup ∧ (m.map Prod.snd).Nodup

theorem envGet_mem {m : List (String × String)} {k v : String}
    (h : envGet m k = some v) : (k, v) ∈ m := by
  unfold envGet at h
  cases hf : m.find? (fun p => p.1 = k) with
  | none => rw [hf] at h; exact absurd h (by simp)
  | some p =>
    rw [hf] at h
    have hp : p ∈ m := List.mem_of_find?_eq_some hf
    have hk : p.1 = k := by simpa using List.find?_some hf
    have hv : p.2 = v := by simpa using h
    rw [← hk, ← hv]
    exact hp

theorem envGet_none {m : List (String × String)} {k : String}
    (h : envGet m k = none) : ∀ p ∈ m, p.1 ≠ k := by
  intro p hp
  unfold envGet at h
  cases hf : m.find? (fun p => p.1 = k) with
  | none =>
    have := List.find?_eq_none.mp hf p hp
    simpa using this
  | some q => rw [hf] at h; exact absurd h (by simp)

theorem getProtoName_hit {m : List (String × String)} {n v : String}
    (hg : envGet m n = some v) : getProtoName m n = (some v, m) := by
  unfold getProtoName
  rw [hg]

theorem getProtoName_miss_found {m : List (String × String)} {n g : String}
    (hg : envGet m n = none)
    (hf : (protoCandidates n).find?
      (fun f => !((m.map Prod.snd).contains f)) = some g) :
    getProtoName m n = (some g, m ++ [(n, g)]) := by
  unfold getProtoName
  rw [hg, hf]

theorem getProtoName_miss_none {m : List (String × String)} {n : String}
    (hg : envGet m n = none)
    (hf : (protoCandidates n).find?
      (fun f => !((m.map Prod.snd).contains f)) = none) :
    getProtoName m n = (none, m) := by
  unfold getProtoName
  rw [hg, hf]

theorem getProtoName_mem {m : List (String × String)} {n f : String}
    (h : (getProtoName m n).1 = some f) : (n, f) ∈ (getProtoName m n).2 := by
  cases hg : envGet m n with
  | some v =>
    rw [getProtoName_hit hg] at h ⊢
    have hv : v = f := by simpa using h
    subst hv
    exact envGet_mem hg
  | none =>
    cases hf : (protoCandidates n).find?
        (fun f => !((m.map Prod.snd).contains f)) with
    | none => rw [getProtoName_miss_none hg hf] at h; simp at h
    | some g =>
      rw [getProtoName_miss_found hg hf] at h ⊢
      have hgf : g = f := by simpa using h
      subst hgf
      simp

theorem getProtoName_fresh {m : List (String × String)} {n f : String}
    (hg : envGet m n = none) (h : (getProtoName m n).1 = some f) :
    f ∉ m.map Prod.snd := by
  cases hf : (protoCandidates n).find?
      (fun f => !((m.map Prod.snd).contains f)) with
  | none => rw [getProtoName_miss_none hg hf] at h; simp at h
  | some g =>
    rw [getProtoName_miss_found hg hf] at h
    have hgf : g = f := by simpa using h
    subst hgf
    have := List.find?_some hf
    simpa using this

theorem getProtoName_mono {m : List (String × String)} {n : String}
    {p : String × String} (h : p ∈ m) : p ∈ (getProtoName m n).2 := by
  cases hg : envGet m n with
  | some v => rw [getProtoName_hit hg]; exact h
  | none =>
    cases hf : (protoCandidates n).find?
        (fun f => !((m.map Prod.snd).contains f)) with
    | none => rw [getProtoName_miss_none hg hf]; exact h
    | some g => rw [getProtoName_miss_found hg hf]; simp [h]

theorem runProtoNames_mono {p : String × String} :
    ∀ (ns : List String) (m : List (String × String)), p ∈ m →
      p ∈ runProtoNames m ns
  | [], _, h => h
  | n :: ns, m, h =>
    runProtoNames_mono ns (getProtoName m n).2 (getProtoName_mono h)

theorem getProtoName_inv {m : List (String × String)} {n : String}
    (h : protoInv m) : protoInv (getProtoName m n).2 := by
  cases hg : envGet m n with
  | some v => rw [getProtoName_hit hg]; exact h
  | none =>
    cases hf : (protoCandidates n).find?
        (fun f => !((m.map Prod.snd).contains f)) with
    | none => rw [getProtoName_miss_none hg hf]; exact h
    | some g =>
      rw [getProtoName_miss_found hg hf]
      have hkey : ∀ p ∈ m, p.1 ≠ n := envGet_none hg
      have hval : g ∉ m.map Prod.snd := by
        have := List.find?_some hf
        simpa using this
      constructor
      · simp only [List.map_append, List.map_cons, List.map_nil]
        rw [List.nodup_append]
        refine ⟨h.1, by simp, ?_⟩
        intro a ha
        simp only [List.mem_singleton]
        rcases List.mem_map.mp ha with ⟨p, hp, hpa⟩
        intro hcon
        exact hkey p hp (by rw [hpa, hcon])
      · simp only [List.map_append, List.map_cons, List.map_nil]
        rw [List.nodup_append]
        refine ⟨h.2, by simp, ?_⟩
        intro a ha
        simp only [List.mem_singleton]
        intro hcon
        rw [hcon] at ha
        exact hval ha

theorem runProtoNames_inv :
    ∀ (ns : List String) (m : List (String × String)), protoInv m →
      protoInv (runProtoNames m ns)
  | [], _, h => h
  | n :: ns, m, h =>
    runProtoNames_inv ns (getProtoName m n).2 (getProtoName_inv h)

theorem protoInv_val_ne {m : List (String × String)} {k₁ v₁ k₂ v₂ : String}
    (h : protoInv m) (h₁ : (k₁, v₁) ∈ m) (h₂ : (k₂, v₂) ∈ m)
    (hk : k₁ ≠ k₂) : v₁ ≠ v₂ := by
  intro hv
  have := List.inj_on_of_nodup_map h.2 h₁ h₂ (by simpa using hv)
  exact hk (by simpa using congrArg Prod.fst this)

/-- Claim C5 (confirmed).  In any run of `_getProtoName` calls starting from
the empty table, two calls on distinct cleaned proto paths that both return
a name return distinct names: the table keeps keys and values
duplicate-free, a cache hit returns the stored value, and a fresh name is
chosen only among strings not yet used as values. -/
theorem getProtoName_injective (pre mid : List String) (n₁ n₂ f₁ f₂ : String)
    (hne : n₁ ≠ n₂)
    (h₁ : (getProtoName (runProtoNames [] pre) n₁).1 = some f₁)
    (h₂ : (getProtoName (runProtoNames [] (pre ++ n₁ :: mid)) n₂).1 = some f₂) :
    f₁ ≠ f₂ := by
  have hminv : protoInv (runProtoNames [] pre) :=
    runProtoNames_inv pre [] (by constructor <;> simp)
  have hmem₁ : (n₁, f₁) ∈ (getProtoName (runProtoNames [] pre) n₁).2 :=
    getProtoName_mem h₁
  have hsplit : runProtoNames [] (pre ++ n₁ :: mid) =
      runProtoNames (getProtoName (runProtoNames [] pre) n₁).2 mid := by
    unfold runProtoNames
    rw [List.foldl_append]
    rfl
  have hM : (n₁, f₁) ∈ runProtoNames [] (pre ++ n₁ :: mid) := by
    rw [hsplit]
    exact runProtoNames_mono mid _ hmem₁
  have hMinv : protoInv (runProtoNames [] (pre ++ n₁ :: mid)) :=
    runProtoNames_inv _ [] (by constructor <;> simp)
  cases hg : envGet (runProtoNames [] (pre ++ n₁ :: mid)) n₂ with
  | some v =>
    have hv : v = f₂ := by
      rw [getProtoName_hit hg] at h₂
      simpa using h₂
    have hmem₂ : (n₂, f₂) ∈ runProtoNames [] (pre ++ n₁ :: mid) :=
      hv ▸ envGet_mem hg
    exact protoInv_val_ne hMinv hM hmem₂ hne
  | none =>
    have hfresh := getProtoName_fresh hg h₂
    intro hcon
    exact hfresh (hcon ▸ List.mem_map.mpr ⟨(n₁, f₁), hM, rfl⟩)

/-- Witness for C5: two distinct cleaned paths in an empty run resolve to
the names derived from their file components, which differ. -/
theorem getProtoName_injective_witness : ("a" : String) ≠ "b" :=
  getProtoName_injective [] [] "a" "b" "a" "b" (by decide) (by decide)
    (by decide)

/-! ## ninjabuild.NinjaParser.resolveAliases (claim C3)

BuildTarget object identity is modelled by numeric ids and the mutable
`alias` field by a map from ids to optional ids.  A `Build` edge stores its
input targets in the attribute `_inputs` (set in `Build.__init__` and
exposed through `getInputs()`); no code path ever assigns an attribute
named `inputs` on a `Build` (the `setattr(b, attr, ...)` at the end of the
`resolveAliases` loop body is only reachable after a successful
`getattr(b, attr)`).  Dynamic attribute access is therefore modelled by a
partial lookup that succeeds exactly on the attribute names the object
defines, returning `none` where Python raises `AttributeError`. -/

structure GraphEdge where
  inputs : List Nat
  depends : List Nat
deriving DecidableEq

/-- `getattr(b, attr)` on a `Build` edge, for the list-of-targets
attributes: `depends` is a real attribute, the inputs are stored under
`_inputs`, and any other name — in particular `inputs` — raises
`AttributeError` (`none`). -/
def edgeAttr (e : GraphEdge) (attr : String) : Option (List Nat) :=
  if attr = "depends" then some e.depends
  else if attr = "_inputs" then some e.inputs
  else none

/-- One element rewrite in `resolveAliases`:
`elem[i] = elem[i].alias` when the alias is set. -/
def aliasStep (aliasOf : Nat → Option Nat) (t : Nat) : Nat :=
  match aliasOf t with
  | some a => a
  | none => t

/-- The body of `resolveAliases` for one edge: read
`list(getattr(b, attr))` for `attr` in `["inputs", "depends"]` — the first
read crashes (`AttributeError`) because the attribute is `_inputs` — then
rewrite each element through its alias. -/
def resolveAliasesEdge (aliasOf : Nat → Option Nat) (e : GraphEdge) :
    Option GraphEdge :=
  match edgeAttr e "inputs" with
  | none => none
  | some ins =>
    match edgeAttr e "depends" with
    | none => none
    | some deps =>
      some ⟨ins.map (aliasStep aliasOf), deps.map (aliasStep aliasOf)⟩

/-- `NinjaParser.resolveAliases`: iterate the per-edge body over
`self.buildEdges`, propagating the raised exception.  The crash happens on
the first attribute read of the first edge, before any rewrite, so no edge
is ever modified. -/
def resolveAliases (aliasOf : Nat → Option Nat) :
    List GraphEdge → Option (List GraphEdge)
  | [] => some []
  | e :: rest =>
    match resolveAliasesEdge aliasOf e with
    | none => none
    | some e' =>
      match resolveAliases aliasOf rest with
      | none => none
      | some rest' => some (e' :: rest')

/-- Claim C3 (code_bug).  The alias-resolution pass reads
`getattr(b, "inputs")`, but `Build` stores its inputs under `_inputs` and
never defines an `inputs` attribute, so the pass raises `AttributeError`
on the first build edge: on every non-empty edge list it crashes before
rewriting anything (concretely also on a single edge with one aliased
input), so it cannot establish the claimed alias-free post-state. -/
theorem resolveAliases_attribute_error :
    (∀ (aliasOf : Nat → Option Nat) (e : GraphEdge)
      (rest : List GraphEdge), resolveAliases aliasOf (e :: rest) = none) ∧
    resolveAliases (fun n => if n = 0 then some 1 else none) [⟨[0], []⟩] =
      none :=
  ⟨fun _ _ _ => rfl, rfl⟩

/-! ## build.Build._resolveName (claims C7, C1)

The regex `\$\{?([\w+]+)\}?` of `_resolveName` is embedded as a left-to-right
scanner over the character list: at a `$` it optionally consumes `{`, then a
maximal non-empty run of word-class characters (the ASCII reading of `\w`
plus the literal `+`), then an optional `}`; on a match the replacer emits
the literal `$name` for names in `exceptVars`, the bound value for names in
the edge scope, and the literal `$name` otherwise; without a match the
scanner advances one character, as `re.sub` does.  The scanner is
fuel-indexed (structurally recursive) and always run with the input length
as fuel, which suffices because each step consumes at least one
character. -/

/-- The character class `[\w+]` of the template regex (ASCII model). -/
def isWordChar (c : Char) : Bool :=
  c.isAlphanum || c = '_' || c = '+'

/-- Consume the optional closing `}` of the template regex. -/
def stripBrace (l : List Char) : List Char :=
  if l.head? = some '}' then l.tail else l

/-- The token part `([\w+]+)\}?` of the template regex at a position. -/
def matchVarCore (l : List Char) : Option (List Char × List Char) :=
  let tok := l.takeWhile isWordChar
  if tok.isEmpty then none
  else some (tok, stripBrace (l.dropWhile isWordChar))

/-- Attempt to match `\{?([\w+]+)\}?` right after a `$`: returns the group
and the rest of the input (an opening brace can only be consumed when a
non-empty token follows, as the regex backtracks otherwise). -/
def matchVar (cs : List Char) : Option (List Char × List Char) :=
  if cs.head? = some '{' then matchVarCore cs.tail else matchVarCore cs

/-- The replacer of `_resolveName`: names in `exceptVars` and unbound names
stay as a literal `$name`; bound names are replaced by their value. -/
def substTok (env : List (String × String)) (ex : List String)
    (tok : List Char) : List Char :=
  if tok.asString ∈ ex then '$' :: tok
  else
    match envGet env tok.asString with
    | some v => v.data
    | none => '$' :: tok

/-- The `re.sub` scan of `_resolveName`, fuel-indexed. -/
def resolveCharsF (env : List (String × String)) (ex : List String) :
    Nat → List Char → List Char
  | _, [] => []
  | 0, cs => cs
  | Nat.succ fuel, c :: rest =>
    if c = '$' then
      match matchVar rest with
      | some (tok, after) =>
        substTok env ex tok ++ resolveCharsF env ex fuel after
      | none => c :: resolveCharsF env ex fuel rest
    else c :: resolveCharsF env ex fuel rest

/-- `Build._resolveName(name, exceptVars)` with the edge scope `vars`. -/
def resolveName (vars : List (String × String)) (name : String)
    (exceptVars : List String) : String :=
  (resolveCharsF vars exceptVars name.data.length name.data).asString

/-! ## build.Build.getCoreCommand (claim C1) -/

/-- `build.Rule`: a ninja rule with its variable bindings. -/
structure Rule where
  name : String
  vars : List (String × String)

/-- A build input as far as `getCoreCommand` reads it: its name and the
`is_a_file` flag. -/
structure BuildTarget where
  name : String
  is_a_file : Bool

/-- A `build.Build` edge, restricted to the fields read by
`getCoreCommand` and `executeGenerator` (outputs are kept by name). -/
structure Build where
  outputs : List String
  rulename : Rule
  inputs : List BuildTarget
  vars : List (String × String)

/-- The `$in`/`$out`/`$TARGET_FILE` test of the loop in `getCoreCommand`. -/
def qualifiesIn (cmd : String) : Bool :=
  pySubstr cmd "$in" && (pySubstr cmd "$out" || pySubstr cmd "$TARGET_FILE")

/-- The CUSTOM_COMMAND file-input scan of the loop in `getCoreCommand`:
some file input whose name occurs in the sub-command. -/
def mentionsFileInput (b : Build) (cmd : String) : Bool :=
  b.inputs.any (fun i => i.is_a_file && pySubstr cmd i.name)

/-- The `cd ` handling of one loop iteration: a sub-command starting with
`cd ` resets the run directory to its tail with the cmake workdir erased. -/
def coreRunDir (b : Build) (cmd : String) (runDir : Option String) :
    Option String :=
  if pyStartsWith cmd "cd " then
    some (pyReplace (pyDrop cmd 3) (envGetD b.vars "cmake_ninja_workdir" "") "")
  else runDir

/-- The per-iteration update of `runDir` (the CUSTOM_COMMAND `cd ` check
runs only for CUSTOM_COMMAND edges). -/
def coreRunDirAfter (b : Build) (cmd : String) (runDir : Option String) :
    Option String :=
  if b.rulename.name = "CUSTOM_COMMAND" then coreRunDir b cmd runDir
  else runDir

/-- The per-iteration update of the sticky `found` flag (the file-input
scan runs only for CUSTOM_COMMAND edges). -/
def coreFoundStep (b : Build) (found : Bool) (cmd : String) : Bool :=
  if b.rulename.name = "CUSTOM_COMMAND" then found || mentionsFileInput b cmd
  else found

/-- The `for cmd in arr` loop of `getCoreCommand`, carrying the sticky
`found` flag and `runDir`; the third component is the value of the loop
variable `cmd` when the loop stops (the break position, or the last
element). -/
def coreLoop (b : Build) :
    List String → Bool → Option String → Bool × Option String × Option String
  | [], found, runDir => (found, runDir, none)
  | [cmd], found, runDir =>
    if qualifiesIn cmd then (true, coreRunDirAfter b cmd runDir, some cmd)
    else (coreFoundStep b found cmd, coreRunDirAfter b cmd runDir, some cmd)
  | cmd :: c₂ :: rest, found, runDir =>
    if qualifiesIn cmd then (true, coreRunDirAfter b cmd runDir, some cmd)
    else coreLoop b (c₂ :: rest) (coreFoundStep b found cmd)
      (coreRunDirAfter b cmd runDir)

/-- The resolved and `&&`-split command list of `Build.getCoreCommand`
(the first three lines of the method, factored out). -/
def commandParts (b : Build) : Option (List String) :=
  (envGet b.rulename.vars "command").map
    (fun command =>
      let c2 := resolveName b.vars command ["in", "out", "TARGET_FILE"]
      pySplit (if c2 ≠ command then c2 else command) "&&")

/-- `Build.getCoreCommand`: the loop result is returned when the `found`
flag is set, pairing the stopped-at sub-command with the stripped run
directory. -/
def getCoreCommand (b : Build) : Option (String × Option String) :=
  match commandParts b with
  | none => none
  | some arr =>
    match coreLoop b arr false none with
    | (true, runDir, some cmd) => some (cmd, runDir.map pyStrip)
    | _ => none

/-- The selection described by claim C1 (spec-side refinement definition):
the first sub-command that references `$in` with `$out`/`$TARGET_FILE`, or,
for a CUSTOM_COMMAND edge, mentions a file input. -/
def firstQualifyingSubcommand (b : Build) : Option String :=
  (commandParts b).bind
    (fun arr => arr.find? (fun c => qualifiesIn c ||
      (b.rulename.name == "CUSTOM_COMMAND" && mentionsFileInput b c)))

/-- A CUSTOM_COMMAND edge whose first sub-command mentions the file input
but whose later sub-commands never reference `$in`. -/
def customBuild : Build :=
  ⟨["out.stamp"], ⟨"CUSTOM_COMMAND", [("command", "touch foo.txt && echo done")]⟩,
    [⟨"foo.txt", true⟩], []⟩

/-- Claim C1 counterexample.  The claim says the first qualifying
sub-command (`touch foo.txt `) is returned; the code only breaks the loop on
the `$in` condition, so after the file-input match it runs the loop to the
end and returns the last sub-command (` echo done`). -/
theorem getCoreCommand_counterexample :
    firstQualifyingSubcommand customBuild = some "touch foo.txt " ∧
    getCoreCommand customBuild = some (" echo done", none) ∧
    (" echo done" : String) ≠ "touch foo.txt " := by decide

/-! ### Scanner lemmas for _resolveName -/

theorem resolveCharsF_nil (env : List (String × String)) (ex : List String)
    (f : Nat) : resolveCharsF env ex f [] = [] := by
  cases f <;> rfl

theorem resolveCharsF_cons (env : List (String × String)) (ex : List String)
    (f : Nat) (c : Char) (rest : List Char) :
    resolveCharsF env ex (f + 1) (c :: rest) =
      if c = '$' then
        match matchVar rest with
        | some (tok, after) =>
          substTok env ex tok ++ resolveCharsF env ex f after
        | none => c :: resolveCharsF env ex f rest
      else c :: resolveCharsF env ex f rest := rfl

theorem stripBrace_length (l : List Char) :
    (stripBrace l).length ≤ l.length := by
  unfold stripBrace
  split
  · exact (List.length_tail l).le.trans (Nat.sub_le _ _)
  · exact le_refl _

theorem stripBrace_of_head (l : List Char)
    (h : l.head? ≠ some '}') : stripBrace l = l := by
  unfold stripBrace
  rw [if_neg h]

theorem dropWhile_length_le (p : Char → Bool) :
    ∀ l : List Char, (l.dropWhile p).length ≤ l.length
  | [] => le_refl _
  | c :: r => by
    rw [List.dropWhile_cons]
    split_ifs
    · exact (dropWhile_length_le p r).trans (Nat.le_succ _)
    · exact le_refl _

theorem matchVarCore_length {l tok after : List Char}
    (h : matchVarCore l = some (tok, after)) : after.length ≤ l.length := by
  simp only [matchVarCore] at h
  by_cases he : (l.takeWhile isWordChar).isEmpty = true
  · rw [if_pos he] at h
    simp at h
  · rw [if_neg he] at h
    rw [Option.some_inj] at h
    have ha : after = stripBrace (l.dropWhile isWordChar) :=
      (congrArg Prod.snd h).symm
    rw [ha]
    exact (stripBrace_length _).trans (dropWhile_length_le _ _)

theorem matchVar_length {cs tok after : List Char}
    (h : matchVar cs = some (tok, after)) : after.length ≤ cs.length := by
  unfold matchVar at h
  split_ifs at h
  · exact (matchVarCore_length h).trans ((List.length_tail _).le.trans
      (Nat.sub_le _ _))
  · exact matchVarCore_length h

theorem resolveCharsF_fuel_eq (env : List (String × String)) (ex : List String) :
    ∀ (f₁ : Nat) (f₂ : Nat) (cs : List Char), cs.length ≤ f₁ →
      cs.length ≤ f₂ → resolveCharsF env ex f₁ cs = resolveCharsF env ex f₂ cs := by
  intro f₁
  induction f₁ with
  | zero =>
    intro f₂ cs h₁ _
    have hnil : cs = [] := by
      cases cs with
      | nil => rfl
      | cons c r => simp at h₁
    subst hnil
    rw [resolveCharsF_nil, resolveCharsF_nil]
  | succ g ih =>
    intro f₂ cs h₁ h₂
    cases cs with
    | nil => rw [resolveCharsF_nil, resolveCharsF_nil]
    | cons c rest =>
      cases f₂ with
      | zero => simp at h₂
      | succ g₂ =>
        rw [resolveCharsF_cons, resolveCharsF_cons]
        have hrest₁ : rest.length ≤ g := by
          simpa using Nat.le_of_succ_le_succ h₁
        have hrest₂ : rest.length ≤ g₂ := by
          simpa using Nat.le_of_succ_le_succ h₂
        by_cases hc : c = '$'
        · rw [if_pos hc, if_pos hc]
          cases hm : matchVar rest with
          | none =>
            dsimp only
            rw [ih g₂ rest hrest₁ hrest₂]
          | some pr =>
            obtain ⟨tok, after⟩ := pr
            have hlen := matchVar_length hm
            dsimp only
            rw [ih g₂ after (hlen.trans hrest₁) (hlen.trans hrest₂)]
        · rw [if_neg hc, if_neg hc, ih g₂ rest hrest₁ hrest₂]

theorem resolveCharsF_env_eq (ex : List String)
    (env env' : List (String × String))
    (hagree : ∀ n, n ∉ ex → envGet env n = envGet env' n) :
    ∀ (f : Nat) (cs : List Char),
      resolveCharsF env ex f cs = resolveCharsF env' ex f cs := by
  intro f
  induction f with
  | zero => intro cs; cases cs <;> rfl
  | succ g ih =>
    intro cs
    cases cs with
    | nil => rfl
    | cons c rest =>
      rw [resolveCharsF_cons, resolveCharsF_cons]
      by_cases hc : c = '$'
      · rw [if_pos hc, if_pos hc]
        cases hm : matchVar rest with
        | none =>
          dsimp only
          rw [ih]
        | some pr =>
          obtain ⟨tok, after⟩ := pr
          dsimp only
          rw [ih]
          have hsub : substTok env ex tok = substTok env' ex tok := by
            unfold substTok
            by_cases hex : tok.asString ∈ ex
            · rw [if_pos hex, if_pos hex]
            · rw [if_neg hex, if_neg hex, hagree tok.asString hex]
          rw [hsub]
      · rw [if_neg hc, if_neg hc, ih]

theorem takeWhile_append_of {p : Char → Bool} :
    ∀ (t cs : List Char), (∀ c ∈ t, p c = true) →
      (∀ c, cs.head? = some c → p c = false) →
      (t ++ cs).takeWhile p = t ∧ (t ++ cs).dropWhile p = cs
  | [], cs, _, hcs => by
    cases cs with
    | nil => exact ⟨rfl, rfl⟩
    | cons c r =>
      have hpc := hcs c rfl
      constructor
      · simp [List.takeWhile_cons, hpc]
      · simp [List.dropWhile_cons, hpc]
  | a :: t', cs, ht, hcs => by
    have ha : p a = true := ht a (by simp)
    have ih := takeWhile_append_of t' cs (fun c hc => ht c (by simp [hc])) hcs
    constructor
    · simp [List.takeWhile_cons, ha, ih.1]
    · simp [List.dropWhile_cons, ha, ih.2]

theorem matchVarCore_token {t cs : List Char} (hne : t ≠ [])
    (ht : ∀ c ∈ t, isWordChar c = true)
    (hcs : ∀ c, cs.head? = some c → isWordChar c = false) :
    matchVarCore (t ++ cs) = some (t, stripBrace cs) := by
  have hsp := takeWhile_append_of t cs ht hcs
  unfold matchVarCore
  rw [hsp.1, hsp.2, if_neg (by simpa using hne)]

theorem matchVar_token {t cs : List Char} (hne : t ≠ [])
    (ht : ∀ c ∈ t, isWordChar c = true)
    (hcs : ∀ c, cs.head? = some c → isWordChar c = false) :
    matchVar (t ++ cs) = some (t, stripBrace cs) := by
  unfold matchVar
  have hb : (t ++ cs).head? ≠ some '{' := by
    cases t with
    | nil => exact absurd rfl hne
    | cons a t' =>
      intro hcon
      have ha : a = '{' := by simpa using hcon
      have := ht a (by simp)
      rw [ha] at this
      exact absurd this (by decide)
  rw [if_neg hb]
  exact matchVarCore_token hne ht hcs

theorem matchVar_braced {t cs : List Char} (hne : t ≠ [])
    (ht : ∀ c ∈ t, isWordChar c = true)
    (hcs : ∀ c, cs.head? = some c → isWordChar c = false) :
    matchVar ('{' :: (t ++ cs)) = some (t, stripBrace cs) := by
  unfold matchVar
  rw [if_pos (by rfl)]
  exact matchVarCore_token hne ht hcs

theorem resolveCharsF_except_step (env : List (String × String))
    (ex : List String) (t cs : List Char) (fuel : Nat)
    (hne : t ≠ []) (ht : ∀ c ∈ t, isWordChar c = true)
    (hcs : ∀ c, cs.head? = some c → isWordChar c = false)
    (hex : t.asString ∈ ex) :
    resolveCharsF env ex (fuel + 1) ('$' :: (t ++ cs)) =
      '$' :: t ++ resolveCharsF env ex fuel (stripBrace cs) := by
  rw [resolveCharsF_cons, if_pos rfl, matchVar_token hne ht hcs]
  dsimp only
  unfold substTok
  rw [if_pos hex]

theorem resolveCharsF_except_braced (env : List (String × String))
    (ex : List String) (t cs : List Char) (fuel : Nat)
    (hne : t ≠ []) (ht : ∀ c ∈ t, isWordChar c = true)
    (hcs : ∀ c, cs.head? = some c → isWordChar c = false)
    (hex : t.asString ∈ ex) :
    resolveCharsF env ex (fuel + 1) ('$' :: '{' :: (t ++ cs)) =
      '$' :: t ++ resolveCharsF env ex fuel (stripBrace cs) := by
  rw [resolveCharsF_cons, if_pos rfl, matchVar_braced hne ht hcs]
  dsimp only
  unfold substTok
  rw [if_pos hex]

theorem resolveCharsF_subst_step (env : List (String × String))
    (ex : List String) (t cs : List Char) (v : String) (fuel : Nat)
    (hne : t ≠ []) (ht : ∀ c ∈ t, isWordChar c = true)
    (hcs : ∀ c, cs.head? = some c → isWordChar c = false)
    (hex : t.asString ∉ ex) (hv : envGet env t.asString = some v) :
    resolveCharsF env ex (fuel + 1) ('$' :: (t ++ cs)) =
      v.data ++ resolveCharsF env ex fuel (stripBrace cs) := by
  rw [resolveCharsF_cons, if_pos rfl, matchVar_token hne ht hcs]
  dsimp only
  unfold substTok
  rw [if_neg hex, hv]

theorem resolveCharsF_subst_braced (env : List (String × String))
    (ex : List String) (t cs : List Char) (v : String) (fuel : Nat)
    (hne : t ≠ []) (ht : ∀ c ∈ t, isWordChar c = true)
    (hcs : ∀ c, cs.head? = some c → isWordChar c = false)
    (hex : t.asString ∉ ex) (hv : envGet env t.asString = some v) :
    resolveCharsF env ex (fuel + 1) ('$' :: '{' :: (t ++ cs)) =
      v.data ++ resolveCharsF env ex fuel (stripBrace cs) := by
  rw [resolveCharsF_cons, if_pos rfl, matchVar_braced hne ht hcs]
  dsimp only
  unfold substTok
  rw [if_neg hex, hv]

/-! ### Claim theorem for _resolveName (C7) -/

theorem pseudo_token_facts {v : String}
    (hv : v ∈ (["in", "out", "TARGET_FILE"] : List String)) :
    v.data ≠ [] ∧ ∀ c ∈ v.data, isWordChar c = true := by
  have hv3 : v = "in" ∨ v = "out" ∨ v = "TARGET_FILE" := by simpa using hv
  rcases hv3 with rfl | rfl | rfl <;> exact ⟨by decide, by decide⟩

theorem head_block {s : String}
    (hhead : ∀ c, s.data.head? = some c → isWordChar c = false ∧ c ≠ '}') :
    (∀ c, s.data.head? = some c → isWordChar c = false) ∧
      s.data.head? ≠ some '}' := by
  refine ⟨fun c hc => (hhead c hc).1, fun hcon => ?_⟩
  exact (hhead '}' hcon).2 rfl

theorem resolveName_token_plain (env : List (String × String))
    (t : String) (s : String) (rep : List Char)
    (hne : t.data ≠ []) (ht : ∀ c ∈ t.data, isWordChar c = true)
    (hhead : ∀ c, s.data.head? = some c → isWordChar c = false ∧ c ≠ '}')
    (hrep : substTok env ["in", "out", "TARGET_FILE"] t.data = rep) :
    (resolveName env ("$" ++ t ++ s) ["in", "out", "TARGET_FILE"]).data =
      rep ++ (resolveName env s ["in", "out", "TARGET_FILE"]).data := by
  obtain ⟨hcs, hbr⟩ := head_block hhead
  have hdata : ("$" ++ t ++ s).data = '$' :: (t.data ++ s.data) := by
    rw [String.data_append, String.data_append]
    rfl
  have hmv : matchVar (t.data ++ s.data) = some (t.data, stripBrace s.data) :=
    matchVar_token hne ht hcs
  show resolveCharsF env ["in", "out", "TARGET_FILE"]
      ("$" ++ t ++ s).data.length ("$" ++ t ++ s).data = _
  rw [hdata]
  have hlen : ('$' :: (t.data ++ s.data)).length = (t.data ++ s.data).length + 1 := by
    simp
  rw [hlen, resolveCharsF_cons, if_pos rfl, hmv]
  dsimp only
  rw [hrep, stripBrace_of_head _ hbr]
  have hfe : resolveCharsF env ["in", "out", "TARGET_FILE"]
      (t.data ++ s.data).length s.data =
      resolveCharsF env ["in", "out", "TARGET_FILE"] s.data.length s.data :=
    resolveCharsF_fuel_eq _ _ _ _ _ (by simp) (le_refl _)
  rw [hfe]
  rfl

theorem resolveName_token_braced (env : List (String × String))
    (t : String) (s : String) (rep : List Char)
    (hne : t.data ≠ []) (ht : ∀ c ∈ t.data, isWordChar c = true)
    (hrep : substTok env ["in", "out", "TARGET_FILE"] t.data = rep) :
    (resolveName env ("$\x7b" ++ t ++ "\x7d" ++ s) ["in", "out", "TARGET_FILE"]).data =
      rep ++ (resolveName env s ["in", "out", "TARGET_FILE"]).data := by
  have hdata : ("$\x7b" ++ t ++ "\x7d" ++ s).data =
      '$' :: '{' :: (t.data ++ ('}' :: s.data)) := by
    rw [String.data_append, String.data_append, String.data_append]
    show (('$' :: '{' :: t.data) ++ ['}']) ++ s.data = _
    rw [List.cons_append, List.cons_append, List.append_assoc]
    rfl
  have hcs : ∀ c, ('}' :: s.data).head? = some c → isWordChar c = false := by
    intro c hc
    have : c = '}' := by simpa using hc.symm
    subst this
    decide
  have hmv : matchVar ('{' :: (t.data ++ ('}' :: s.data))) =
      some (t.data, stripBrace ('}' :: s.data)) :=
    matchVar_braced hne ht hcs
  show resolveCharsF env ["in", "out", "TARGET_FILE"]
      ("$\x7b" ++ t ++ "\x7d" ++ s).data.length ("$\x7b" ++ t ++ "\x7d" ++ s).data = _
  rw [hdata]
  have hlen : ('$' :: '{' :: (t.data ++ ('}' :: s.data))).length =
      ('{' :: (t.data ++ ('}' :: s.data))).length + 1 := by simp
  rw [hlen, resolveCharsF_cons, if_pos rfl, hmv]
  dsimp only
  have hsb : stripBrace ('}' :: s.data) = s.data := rfl
  rw [hrep, hsb]
  have hfe : resolveCharsF env ["in", "out", "TARGET_FILE"]
      ('{' :: (t.data ++ ('}' :: s.data))).length s.data =
      resolveCharsF env ["in", "out", "TARGET_FILE"] s.data.length s.data :=
    resolveCharsF_fuel_eq _ _ _ _ _ (by simp; omega) (le_refl _)
  rw [hfe]
  rfl

/-- Claim C7 (confirmed).  Resolution of a rule command against the edge
scope: (1) the result does not depend on whether the scope binds `in`, `out`
or `TARGET_FILE`; (2) a `$in`/`$out`/`$TARGET_FILE` occurrence (also in the
braced form `${in}`) is emitted as the literal `$name`, unexpanded, for
every scope; while (3) any other `$NAME`/`${NAME}` occurrence bound in the
scope is replaced by its value. -/
theorem resolveName_pseudo_preserved :
    (∀ (env env' : List (String × String)) (s : String),
      (∀ n, n ∉ (["in", "out", "TARGET_FILE"] : List String) →
        envGet env n = envGet env' n) →
      resolveName env s ["in", "out", "TARGET_FILE"] =
        resolveName env' s ["in", "out", "TARGET_FILE"]) ∧
    (∀ (env : List (String × String)) (v s : String),
      v ∈ (["in", "out", "TARGET_FILE"] : List String) →
      (∀ c, s.data.head? = some c → isWordChar c = false ∧ c ≠ '}') →
      resolveName env ("$" ++ v ++ s) ["in", "out", "TARGET_FILE"] =
        "$" ++ v ++ resolveName env s ["in", "out", "TARGET_FILE"]) ∧
    (∀ (env : List (String × String)) (v s : String),
      v ∈ (["in", "out", "TARGET_FILE"] : List String) →
      resolveName env ("$\x7b" ++ v ++ "\x7d" ++ s) ["in", "out", "TARGET_FILE"] =
        "$" ++ v ++ resolveName env s ["in", "out", "TARGET_FILE"]) ∧
    (∀ (env : List (String × String)) (name val s : String),
      name.data ≠ [] → (∀ c ∈ name.data, isWordChar c = true) →
      name ∉ (["in", "out", "TARGET_FILE"] : List String) →
      envGet env name = some val →
      (∀ c, s.data.head? = some c → isWordChar c = false ∧ c ≠ '}') →
      resolveName env ("$" ++ name ++ s) ["in", "out", "TARGET_FILE"] =
        val ++ resolveName env s ["in", "out", "TARGET_FILE"]) := by
  have hback : ∀ (t : String), t.data.asString = t := fun t => rfl
  refine ⟨?_, ?_, ?_, ?_⟩
  · intro env env' s hagree
    apply String.ext
    show resolveCharsF env _ _ _ = resolveCharsF env' _ _ _
    rw [resolveCharsF_env_eq _ env env' hagree]
  · intro env v s hv hhead
    obtain ⟨hne, ht⟩ := pseudo_token_facts hv
    have hrep : substTok env ["in", "out", "TARGET_FILE"] v.data =
        '$' :: v.data := by
      unfold substTok
      rw [hback v, if_pos hv]
    apply String.ext
    rw [resolveName_token_plain env v s ('$' :: v.data) hne ht hhead hrep]
    rw [String.data_append, String.data_append]
    rfl
  · intro env v s hv
    obtain ⟨hne, ht⟩ := pseudo_token_facts hv
    have hrep : substTok env ["in", "out", "TARGET_FILE"] v.data =
        '$' :: v.data := by
      unfold substTok
      rw [hback v, if_pos hv]
    apply String.ext
    rw [resolveName_token_braced env v s ('$' :: v.data) hne ht hrep]
    rw [String.data_append, String.data_append]
    rfl
  · intro env name val s hne ht hnot hval hhead
    have hrep : substTok env ["in", "out", "TARGET_FILE"] name.data =
        val.data := by
      unfold substTok
      rw [hback name, if_neg hnot, hval]
    apply String.ext
    rw [resolveName_token_plain env name s val.data hne ht hhead hrep]
    rw [String.data_append]

/-- Witness for C7: with a scope binding `in`, `FLAGS` and `out`, the
pseudo-variables stay literal while `$FLAGS` is expanded. -/
theorem resolveName_pseudo_preserved_witness :
    resolveName [("in", "XXX"), ("FLAGS", "-O2")] ("$" ++ "in" ++ " -o")
        ["in", "out", "TARGET_FILE"] =
      "$" ++ "in" ++ resolveName [("in", "XXX"), ("FLAGS", "-O2")] " -o"
        ["in", "out", "TARGET_FILE"] := by
  refine resolveName_pseudo_preserved.2.1 [("in", "XXX"), ("FLAGS", "-O2")]
    "in" " -o" (by decide) ?_
  intro c hc
  have hcv : c = ' ' := by
    have : (" -o" : String).data.head? = some ' ' := rfl
    rw [this] at hc
    simpa using hc.symm
  subst hcv
  exact ⟨by decide, by decide⟩

/-! ### Claim theorem for getCoreCommand (C1) -/

theorem pySplitGo_ne_nil (sep : List Char) :
    ∀ (f : Nat) (acc cs : List Char), pySplitGo sep f acc cs ≠ [] := by
  intro f
  induction f with
  | zero => intro acc cs; cases cs <;> simp [pySplitGo]
  | succ g ih =>
    intro acc cs
    cases cs with
    | nil => simp [pySplitGo]
    | cons c r =>
      simp only [pySplitGo]
      split_ifs
      · simp
      · exact ih _ _

theorem pySplit_ne_nil (s sep : String) : pySplit s sep ≠ [] := by
  unfold pySplit
  split_ifs
  · simp
  · intro hcon
    rw [List.map_eq_nil_iff] at hcon
    exact pySplitGo_ne_nil _ _ _ _ hcon

theorem commandParts_ne_nil {b : Build} {arr : List String}
    (h : commandParts b = some arr) : arr ≠ [] := by
  unfold commandParts at h
  cases hg : envGet b.rulename.vars "command" with
  | none => rw [hg] at h; exact absurd h (by simp)
  | some command =>
    rw [hg] at h
    have harr : arr = pySplit
        (if resolveName b.vars command ["in", "out", "TARGET_FILE"] ≠ command
          then resolveName b.vars command ["in", "out", "TARGET_FILE"]
          else command) "&&" := by
      simpa using h.symm
    rw [harr]
    exact pySplit_ne_nil _ _

/-- The value of the `found` flag after scanning a whole list without an
early break. -/
def coreFoundAfter (b : Build) (found : Bool) (arr : List String) : Bool :=
  if b.rulename.name = "CUSTOM_COMMAND" then
    found || arr.any (mentionsFileInput b)
  else found

theorem coreFoundAfter_cons (b : Build) (found : Bool) (cmd : String)
    (rest : List String) :
    coreFoundAfter b (coreFoundStep b found cmd) rest =
      coreFoundAfter b found (cmd :: rest) := by
  unfold coreFoundAfter coreFoundStep
  split_ifs
  · simp [Bool.or_assoc]
  · rfl

theorem coreLoop_spec (b : Build) :
    ∀ (arr : List String) (found : Bool) (runDir : Option String),
      arr ≠ [] →
      (∀ c, arr.find? qualifiesIn = some c →
        ∃ r, coreLoop b arr found runDir = (true, r, some c)) ∧
      (arr.find? qualifiesIn = none →
        ∃ r, coreLoop b arr found runDir =
          (coreFoundAfter b found arr, r, arr.getLast?)) := by
  intro arr
  induction arr with
  | nil => intro _ _ hne; exact absurd rfl hne
  | cons cmd rest ih =>
    intro found runDir _
    cases rest with
    | nil =>
      constructor
      · intro c hc
        rcases hq : qualifiesIn cmd with _ | _
        · rw [List.find?_cons, hq] at hc
          simp at hc
        · rw [List.find?_cons, hq] at hc
          have hcc : cmd = c := by simpa using hc
          subst hcc
          refine ⟨coreRunDirAfter b cmd runDir, ?_⟩
          simp [coreLoop, hq]
      · intro hq'
        rcases hq : qualifiesIn cmd with _ | _
        · refine ⟨coreRunDirAfter b cmd runDir, ?_⟩
          simp only [coreLoop, hq, Bool.false_eq_true, if_false]
          unfold coreFoundAfter coreFoundStep
          split_ifs <;> simp
        · rw [List.find?_cons, hq] at hq'
          simp at hq'
    | cons c₂ rest' =>
      have ihr := ih found runDir
      constructor
      · intro c hc
        rcases hq : qualifiesIn cmd with _ | _
        · rw [List.find?_cons, hq] at hc
          obtain ⟨r, hr⟩ := ((ih (coreFoundStep b found cmd)
            (coreRunDirAfter b cmd runDir) (by simp)).1) c hc
          refine ⟨r, ?_⟩
          simp only [coreLoop, hq, Bool.false_eq_true, if_false]
          exact hr
        · rw [List.find?_cons, hq] at hc
          have hcc : cmd = c := by simpa using hc
          subst hcc
          refine ⟨coreRunDirAfter b cmd runDir, ?_⟩
          simp [coreLoop, hq]
      · intro hq'
        rcases hq : qualifiesIn cmd with _ | _
        · rw [List.find?_cons, hq] at hq'
          obtain ⟨r, hr⟩ := ((ih (coreFoundStep b found cmd)
            (coreRunDirAfter b cmd runDir) (by simp)).2) hq'
          refine ⟨r, ?_⟩
          simp only [coreLoop, hq, Bool.false_eq_true, if_false]
          rw [hr, coreFoundAfter_cons]
          have hlast : (c₂ :: rest').getLast? = (cmd :: c₂ :: rest').getLast? := by
            rw [List.getLast?_cons_cons]
          rw [hlast]
        · rw [List.find?_cons, hq] at hq'
          simp at hq'

theorem getLast?_ne_none : ∀ (l : List String), l ≠ [] → l.getLast? ≠ none
  | [], h => absurd rfl h
  | [a], _ => by simp
  | a :: b :: t, _ => by
    rw [List.getLast?_cons_cons]
    exact getLast?_ne_none (b :: t) (by simp)

/-- Claim C1 as amended (proved).  When `getCoreCommand` returns a
sub-command, it is the first sub-command of the resolved, `&&`-split
command that references `$in` together with `$out`/`$TARGET_FILE`; if no
sub-command does but the edge is a CUSTOM_COMMAND whose file-input name
occurs in some sub-command, the returned sub-command is the last one (the
loop only breaks on the `$in` condition).  It returns None exactly when
neither applies. -/
theorem getCoreCommand_amended (b : Build) :
    (∀ cmd runDir, getCoreCommand b = some (cmd, runDir) →
      ∃ arr, commandParts b = some arr ∧
        (arr.find? qualifiesIn = some cmd ∨
          (arr.find? qualifiesIn = none ∧
            b.rulename.name = "CUSTOM_COMMAND" ∧
            arr.any (mentionsFileInput b) = true ∧
            arr.getLast? = some cmd))) ∧
    (getCoreCommand b = none →
      ∀ arr, commandParts b = some arr →
        arr.find? qualifiesIn = none ∧
        (b.rulename.name = "CUSTOM_COMMAND" →
          arr.any (mentionsFileInput b) = false)) := by
  have hred : ∀ arr, commandParts b = some arr →
      getCoreCommand b = (match coreLoop b arr false none with
        | (true, runDir, some cmd) => some (cmd, runDir.map pyStrip)
        | _ => none) := by
    intro arr hcp
    unfold getCoreCommand
    rw [hcp]
  constructor
  · intro cmd runDir h
    cases hcp : commandParts b with
    | none =>
      unfold getCoreCommand at h
      rw [hcp] at h
      exact absurd h (by simp)
    | some arr =>
      rw [hred arr hcp] at h
      have hne : arr ≠ [] := commandParts_ne_nil hcp
      cases hfq : arr.find? qualifiesIn with
      | some c =>
        obtain ⟨r, hr⟩ := (coreLoop_spec b arr false none hne).1 c hfq
        rw [hr] at h
        have h' : some (c, r.map pyStrip) = some (cmd, runDir) := h
        have hcc : c = cmd := by
          simpa using congrArg (fun o => Option.map Prod.fst o) h'
        exact ⟨arr, rfl, Or.inl (hcc ▸ hfq)⟩
      | none =>
        obtain ⟨r, hr⟩ := (coreLoop_spec b arr false none hne).2 hfq
        rw [hr] at h
        by_cases hcust : b.rulename.name = "CUSTOM_COMMAND"
        · rw [show coreFoundAfter b false arr =
              arr.any (mentionsFileInput b) by
            unfold coreFoundAfter
            rw [if_pos hcust]
            simp] at h
          cases hany : arr.any (mentionsFileInput b) with
          | false =>
            rw [hany] at h
            exact absurd (show (none : Option (String × Option String)) =
              some (cmd, runDir) from h) (by simp)
          | true =>
            rw [hany] at h
            cases hlast : arr.getLast? with
            | none =>
              rw [hlast] at h
              exact absurd (show (none : Option (String × Option String)) =
                some (cmd, runDir) from h) (by simp)
            | some c =>
              rw [hlast] at h
              have h' : some (c, r.map pyStrip) = some (cmd, runDir) := h
              have hcc : c = cmd := by
                simpa using congrArg (fun o => Option.map Prod.fst o) h'
              exact ⟨arr, rfl, Or.inr ⟨hfq, hcust, hany, hcc ▸ hlast⟩⟩
        · rw [show coreFoundAfter b false arr = false by
            unfold coreFoundAfter
            rw [if_neg hcust]] at h
          exact absurd (show (none : Option (String × Option String)) =
            some (cmd, runDir) from h) (by simp)
  · intro h arr hcp
    have hne : arr ≠ [] := commandParts_ne_nil hcp
    rw [hred arr hcp] at h
    constructor
    · cases hfq : arr.find? qualifiesIn with
      | none => rfl
      | some c =>
        obtain ⟨r, hr⟩ := (coreLoop_spec b arr false none hne).1 c hfq
        rw [hr] at h
        exact absurd (show some (c, r.map pyStrip) =
          (none : Option (String × Option String)) from h) (by simp)
    · intro hcust
      cases hfq : arr.find? qualifiesIn with
      | some c =>
        obtain ⟨r, hr⟩ := (coreLoop_spec b arr false none hne).1 c hfq
        rw [hr] at h
        exact absurd (show some (c, r.map pyStrip) =
          (none : Option (String × Option String)) from h) (by simp)
      | none =>
        obtain ⟨r, hr⟩ := (coreLoop_spec b arr false none hne).2 hfq
        rw [hr] at h
        rw [show coreFoundAfter b false arr =
            arr.any (mentionsFileInput b) by
          unfold coreFoundAfter
          rw [if_pos hcust]
          simp] at h
        cases hany : arr.any (mentionsFileInput b) with
        | false => rfl
        | true =>
          rw [hany] at h
          cases hlast : arr.getLast? with
          | none => exact absurd hlast (getLast?_ne_none arr hne)
          | some c =>
            rw [hlast] at h
            exact absurd (show some (c, r.map pyStrip) =
              (none : Option (String × Option String)) from h) (by simp)

/-- Witness for the amended C1 at the CUSTOM_COMMAND example edge. -/
theorem getCoreCommand_amended_witness :
    ∃ arr, commandParts customBuild = some arr ∧
      (arr.find? qualifiesIn = some " echo done" ∨
        (arr.find? qualifiesIn = none ∧
          customBuild.rulename.name = "CUSTOM_COMMAND" ∧
          arr.any (mentionsFileInput customBuild) = true ∧
          arr.getLast? = some " echo done")) :=
  (getCoreCommand_amended customBuild).1 " echo done" none (by decide)

/-! ## ninjabuild.NinjaParser.executeGenerator (claim C4)

The observable effects of one call — spawning the child process
(`subprocess.run`) and the two cache copies (`_copyFilesBackNForth`) — are
recorded as an event trace; `os.chdir`, `os.makedirs` and the PYTHONPATH
mutation have no bearing on the claim and are elided.  The fresh
`tempfile.mkdtemp()` directory, the existence check on the cache directory
and the child exit status are oracle inputs of the call; `cacheDirBase`
(HOME plus the escaped code root) and the SHA-1 function are fixed per
parser.  The `re.sub(workDir, ...)` substitution is modelled as literal
text replacement.  The mutable parser state read and written here is
`self.ran` and `self.generatedFiles` (keys only). -/

inductive GenEvent
  | spawn (cmd : String)
  | copy (src dst : String)
deriving DecidableEq

structure GenState where
  ran : List (String × String)
  generatedFiles : List String
deriving DecidableEq

/-- The oracle inputs of one `executeGenerator` call. -/
structure GenCall where
  build : Build
  tempDir : String
  cacheExists : String → Bool
  runOk : Bool

/-- The cmake workdir of an edge (`build.vars.get("cmake_ninja_workdir", "")`). -/
def workDirOf (b : Build) : String :=
  envGetD b.vars "cmake_ninja_workdir" ""

/-- The command after the two `strip()` calls and the `python3 ` prefix
for `.py` executables. -/
def genCmd (cmd₀ : String) : String :=
  if pyEndsWith ((pySplit (pyStrip (pyStrip cmd₀)) " ").headD "") ".py"
  then "python3 " ++ pyStrip (pyStrip cmd₀)
  else pyStrip (pyStrip cmd₀)

/-- The command after the `mkdir -p <runDir> && cd <runDir> && ` wrap. -/
def genCmdW (cmd₀ : String) (runDir : Option String) : String :=
  match runDir with
  | some r => "mkdir -p " ++ r ++ " && cd " ++ r ++ " && " ++ genCmd cmd₀
  | none => genCmd cmd₀

/-- The (command, workdir) pair that one call presents to the `self.ran`
membership check, when the call reaches it: the core command after
stripping, with the `cp ` edges, protoc edges and command-less edges
filtered out, and the `python3 ` prefix applied. -/
def pairOf (b : Build) : Option (String × String) :=
  match getCoreCommand b with
  | none => none
  | some (cmd₀, _) =>
    if pyStartsWith (pyStrip cmd₀) "cp " then none
    else if pyEndsWith ((pySplit (pyStrip (pyStrip cmd₀)) " ").headD "")
        "/protoc" then none
    else some (genCmd cmd₀, workDirOf b)

/-- `NinjaParser.executeGenerator`: returns the new state, the event trace
and the Python return value (the temp directory, or None).  The Python
local `cmd` is rewritten in place by the source; its successive values are
`cmd₀`, `pyStrip (pyStrip cmd₀)`, `genCmd cmd₀` and `genCmdW cmd₀ runDir`
here. -/
def executeGenerator (cacheDirBase : String) (sha1 : String → String)
    (st : GenState) (c : GenCall) : GenState × List GenEvent × Option String :=
  match getCoreCommand c.build with
  | none => (st, [], none)
  | some (cmd₀, runDir) =>
    if pyStartsWith (pyStrip cmd₀) "cp " then (st, [], none)
    else if pyEndsWith ((pySplit (pyStrip (pyStrip cmd₀)) " ").headD "")
        "/protoc" then
      ({ st with generatedFiles := st.generatedFiles ++
          c.build.outputs.map (fun o => pyReplace o (workDirOf c.build) "") },
        [], none)
    else if (genCmd cmd₀, workDirOf c.build) ∈ st.ran then (st, [], none)
    else if c.cacheExists (cacheDirBase ++ "/" ++ sha1 (genCmdW cmd₀ runDir))
        then
      ({ st with ran := st.ran ++ [(genCmd cmd₀, workDirOf c.build)] },
        [GenEvent.copy (cacheDirBase ++ "/" ++ sha1 (genCmdW cmd₀ runDir))
          c.tempDir],
        some c.tempDir)
    else if c.runOk then
      ({ st with ran := st.ran ++ [(genCmd cmd₀, workDirOf c.build)] },
        [GenEvent.spawn (pyReplace (genCmdW cmd₀ runDir) (workDirOf c.build)
            (c.tempDir ++ "/")),
          GenEvent.copy c.tempDir
            (cacheDirBase ++ "/" ++ sha1 (genCmdW cmd₀ runDir))],
        some c.tempDir)
    else
      ({ st with ran := st.ran ++ [(genCmd cmd₀, workDirOf c.build)] },
        [GenEvent.spawn (pyReplace (genCmdW cmd₀ runDir) (workDirOf c.build)
            (c.tempDir ++ "/"))],
        none)

/-- A sequence of `executeGenerator` calls threaded through the parser
state, collecting each call with its event trace. -/
def runGenerator (cacheDirBase : String) (sha1 : String → String)
    (st : GenState) : List GenCall → GenState × List (GenCall × List GenEvent)
  | [] => (st, [])
  | c :: cs =>
    let r := executeGenerator cacheDirBase sha1 st c
    let rest := runGenerator cacheDirBase sha1 r.1 cs
    (rest.1, (c, r.2.1) :: rest.2)

/-- The number of calls in a trace that both carry the pair `p` and emit
any spawn or copy event. -/
def pairCalls (p : String × String) (l : List (GenCall × List GenEvent)) :
    Nat :=
  l.countP (fun ce => pairOf ce.1.build == some p && !ce.2.isEmpty)

theorem executeGenerator_cases (cacheDirBase : String)
    (sha1 : String → String) (st : GenState) (c : GenCall) :
    (∃ p, pairOf c.build = some p ∧ p ∉ st.ran ∧
      (executeGenerator cacheDirBase sha1 st c).1.ran = st.ran ++ [p] ∧
      (executeGenerator cacheDirBase sha1 st c).2.1 ≠ []) ∨
    ((executeGenerator cacheDirBase sha1 st c).2.1 = [] ∧
      (executeGenerator cacheDirBase sha1 st c).1.ran = st.ran ∧
      ∀ p, pairOf c.build = some p → p ∈ st.ran) := by
  unfold executeGenerator pairOf
  cases hg : getCoreCommand c.build with
  | none =>
    right
    exact ⟨rfl, rfl, by intro p hp; exact absurd hp (by simp)⟩
  | some pr =>
    obtain ⟨cmd₀, runDir⟩ := pr
    dsimp only
    by_cases h1 : pyStartsWith (pyStrip cmd₀) "cp " = true
    · rw [if_pos h1, if_pos h1]
      right
      exact ⟨rfl, rfl, by intro p hp; exact absurd hp (by simp)⟩
    · rw [if_neg h1, if_neg h1]
      by_cases h2 : pyEndsWith
          ((pySplit (pyStrip (pyStrip cmd₀)) " ").headD "") "/protoc" = true
      · rw [if_pos h2, if_pos h2]
        right
        exact ⟨rfl, rfl, by intro p hp; exact absurd hp (by simp)⟩
      · rw [if_neg h2, if_neg h2]
        by_cases h3 : (genCmd cmd₀, workDirOf c.build) ∈ st.ran
        · rw [if_pos h3]
          right
          refine ⟨rfl, rfl, ?_⟩
          intro p hp
          have hpp := Option.some_inj.mp hp
          exact hpp ▸ h3
        · rw [if_neg h3]
          left
          refine ⟨(genCmd cmd₀, workDirOf c.build), rfl, h3, ?_, ?_⟩
          · split_ifs <;> rfl
          · split_ifs <;> simp

/-- Per-pair spawn/copy bound over any call sequence. -/
theorem runGenerator_bound (cacheDirBase : String) (sha1 : String → String) :
    ∀ (calls : List GenCall) (st : GenState) (p : String × String),
      pairCalls p (runGenerator cacheDirBase sha1 st calls).2 ≤
        (if p ∈ st.ran then 0 else 1) := by
  intro calls
  induction calls with
  | nil =>
    intro st p
    unfold runGenerator pairCalls
    simp only [List.countP_nil]
    split_ifs <;> simp
  | cons c cs ih =>
    intro st p
    unfold runGenerator pairCalls
    rw [List.countP_cons]
    rcases executeGenerator_cases cacheDirBase sha1 st c with
      ⟨q, hq, hqmem, hran, hev⟩ | ⟨hev, hran, _⟩
    · by_cases hpq : p = q
      · subst hpq
        rw [if_neg hqmem]
        have hrest := ih (executeGenerator cacheDirBase sha1 st c).1 p
        rw [hran] at hrest
        rw [if_pos (by simp)] at hrest
        have hone : (if (pairOf c.build == some p && !(executeGenerator
            cacheDirBase sha1 st c).2.1.isEmpty) = true then 1 else 0) ≤ 1 := by
          split_ifs <;> simp
        calc pairCalls p (runGenerator cacheDirBase sha1
              (executeGenerator cacheDirBase sha1 st c).1 cs).2 +
              (if (pairOf c.build == some p && !(executeGenerator
                cacheDirBase sha1 st c).2.1.isEmpty) = true then 1 else 0)
            ≤ 0 + 1 := Nat.add_le_add hrest hone
          _ = 1 := by simp
      · have hzero : (pairOf c.build == some p && !(executeGenerator
            cacheDirBase sha1 st c).2.1.isEmpty) = false := by
          rw [hq]
          have : (some q == some p) = false := by
            simp [hpq]
            intro hcon
            exact hpq hcon.symm
          simp [this]
        rw [hzero]
        simp only [Bool.false_eq_true, if_false, Nat.add_zero]
        have hrest := ih (executeGenerator cacheDirBase sha1 st c).1 p
        rw [hran] at hrest
        have hiff : p ∈ st.ran ++ [q] ↔ p ∈ st.ran := by
          simp [hpq]
        by_cases hmem : p ∈ st.ran
        · rw [if_pos (hiff.mpr hmem)] at hrest
          rw [if_pos hmem]
          exact hrest
        · rw [if_neg (fun hcon => hmem (hiff.mp hcon))] at hrest
          rw [if_neg hmem]
          exact hrest
    · have hzero : (pairOf c.build == some p && !(executeGenerator
          cacheDirBase sha1 st c).2.1.isEmpty) = false := by
        rw [hev]
        simp
      rw [hzero]
      simp only [Bool.false_eq_true, if_false, Nat.add_zero]
      have hrest := ih (executeGenerator cacheDirBase sha1 st c).1 p
      rw [hran] at hrest
      exact hrest

/-- Claim C4 (confirmed).  Within one process run, a call whose
(resolved command, workdir) pair is already in `self.ran` returns
immediately — same state, no spawn, no copy, Python None — and over any
sequence of calls each pair spawns or copies at most once (not at all when
the pair is already recorded). -/
theorem executeGenerator_once (cacheDirBase : String)
    (sha1 : String → String) :
    (∀ (st : GenState) (c : GenCall) (p : String × String),
      pairOf c.build = some p → p ∈ st.ran →
      executeGenerator cacheDirBase sha1 st c = (st, [], none)) ∧
    (∀ (calls : List GenCall) (st : GenState) (p : String × String),
      pairCalls p (runGenerator cacheDirBase sha1 st calls).2 ≤
        (if p ∈ st.ran then 0 else 1)) := by
  constructor
  · intro st c p hp hmem
    unfold executeGenerator
    unfold pairOf at hp
    cases hg : getCoreCommand c.build with
    | none => rw [hg] at hp
    | some pr =>
      obtain ⟨cmd₀, runDir⟩ := pr
      rw [hg] at hp
      dsimp only at hp ⊢
      by_cases h1 : pyStartsWith (pyStrip cmd₀) "cp " = true
      · rw [if_pos h1] at hp
        exact absurd hp (by simp)
      · rw [if_neg h1] at hp ⊢
        by_cases h2 : pyEndsWith
            ((pySplit (pyStrip (pyStrip cmd₀)) " ").headD "") "/protoc" = true
        · rw [if_pos h2] at hp
          exact absurd hp (by simp)
        · rw [if_neg h2] at hp ⊢
          have hpp := Option.some_inj.mp hp
          rw [if_pos (hpp ▸ hmem)]
  · exact runGenerator_bound cacheDirBase sha1

/-- A concrete build whose pair is ("gcc $in -o $out", ""). -/
def ranBuild : Build :=
  ⟨[], ⟨"cc", [("command", "gcc $in -o $out")]⟩, [], []⟩

/-- Witness for C4: with the pair already recorded in `ran`, the call is a
no-op returning None. -/
theorem executeGenerator_once_witness :
    executeGenerator "" (fun _ => "h")
        ⟨[("gcc $in -o $out", "")], []⟩
        ⟨ranBuild, "/tmp/t", fun _ => false, true⟩ =
      (⟨[("gcc $in -o $out", "")], []⟩, [], none) :=
  (executeGenerator_once "" (fun _ => "h")).1
    ⟨[("gcc $in -o $out", "")], []⟩
    ⟨ranBuild, "/tmp/t", fun _ => false, true⟩
    ("gcc $in -o $out", "") (by decide) (by decide)

/-! ## cppfileparser.findCPPIncludes (claim C6)

The three mutually recursive functions `findCPPIncludes`,
`_findCPPIncludeForFile` and `_findCPPIncludeForFileSameDir` are embedded
with the filesystem (`os.path.exists`, `os.path.isdir`, `open().readlines`
and `os.path.abspath`) as an oracle record, the module-level `cache` and
`seen` as explicit state (the `seen` key pairs the name with the include
directory list instead of its Python `str()` rendering), Python sets as
`Finset`s, and `BuildTarget`-wrapped `BazelCCImport`s as records carrying
an id and a header list.  A Python exception — a failed `open`, the
`NameError` on `generatedFileFullName`/`tempDir` when they were never
assigned, or the `assert generatedDir is not None` — is the result `none`.
Recursion is fuel-indexed; the helper functions take the recursive entry
point as a parameter, and the fuel decreases on every nested
`findCPPIncludes` call. -/

structure CCImport where
  id : Nat
  hdrs : List String

structure CPPIncludes where
  foundHeaders : Finset (String × Option String)
  notFoundHeaders : Finset String
  neededImports : Finset Nat
  neededGeneratedFiles : Finset (String × Option String)
deriving DecidableEq

/-- The zero-argument `CPPIncludes(set(), set(), set(), set())`. -/
def CPPIncludes.empty : CPPIncludes := ⟨∅, ∅, ∅, ∅⟩

/-- `CPPIncludes.__add__`: componentwise union. -/
def CPPIncludes.add (a b : CPPIncludes) : CPPIncludes :=
  ⟨a.foundHeaders ∪ b.foundHeaders, a.notFoundHeaders ∪ b.notFoundHeaders,
    a.neededImports ∪ b.neededImports,
    a.neededGeneratedFiles ∪ b.neededGeneratedFiles⟩

/-- Filesystem oracle and per-run parameters of the resolver. -/
structure CPPEnv where
  fsExists : String → Bool
  fsIsDir : String → Bool
  fsLines : String → Option (List String)
  absPath : String → String
  compilerIncludes : List String
  ccImports : List CCImport
  generatedFiles : List (String × String)
  generatedDir : Option String

/-- The module-level mutable `cache` and `seen`. -/
structure CPPState where
  cache : List (String × CPPIncludes)
  seen : List (String × List String)

def genLookup (env : CPPEnv) (k : String) : Option String :=
  (env.generatedFiles.find? (fun p => p.1 = k)).map Prod.snd

def cacheLookup (st : CPPState) (k : String) : Option CPPIncludes :=
  (st.cache.find? (fun p => p.1 = k)).map Prod.snd

/-- `os.path.dirname`. -/
def pyDirname (s : String) : String :=
  let head := (s.data.reverse.dropWhile (fun c => c ≠ '/')).reverse
  if head.isEmpty then ""
  else if head.all (fun c => c = '/') then head.asString
  else (head.reverse.dropWhile (fun c => c = '/')).reverse.asString

/-- `os.path.basename`. -/
def pyBasename (s : String) : String :=
  (pySplit s "/").getLastD ""

/-- The per-line regex of `findCPPIncludes`,
`\s*#\s*include ((?:<|").*(?:>|"))`: returns the group (the delimited
include text) when the line matches. -/
def parseIncludeLine (line : String) : Option String :=
  match line.data.dropWhile isPySpace with
  | '#' :: r1 =>
    let r2 := r1.dropWhile isPySpace
    if ("include ".data).isPrefixOf r2 then
      match r2.drop 8 with
      | c :: rest =>
        if c = '<' ∨ c = '"' then
          let tailRev := rest.reverse.dropWhile (fun ch => ¬(ch = '>' ∨ ch = '"'))
          if tailRev.isEmpty then none
          else some ((c :: tailRev.reverse).asString)
        else none
      | [] => none
    else none
  | _ => none

/-- `current_include[1:-1]`. -/
def innerOf (s : String) : String :=
  ((s.data.drop 1).dropLast).asString

/-- The recursion interface of `findCPPIncludes`:
name, include dirs, generated flag, state. -/
def CPPRec : Type :=
  String → List String → Bool → CPPState → Option (CPPIncludes × CPPState)

/-- The loop-carried Python locals of the directory loop in
`_findCPPIncludeForFile`; locals that may be read while still unassigned
(`full_file_name`, `use_generated_dir`, `tempDir`,
`generatedFileFullName`) are options. -/
structure DirLoopState where
  found : Bool
  check : Bool
  ret : CPPIncludes
  ffn : Option String
  ugd : Option Bool
  tmp : Option String
  genFull : Option String

/-- The `for d in includes_dirs` loop of `_findCPPIncludeForFile`;
`none` models a raised exception. -/
def dirLoop (env : CPPEnv) (file current_dir : String) :
    List String → DirLoopState → Option DirLoopState
  | [], s => some s
  | d :: ds, s =>
    let ugdMode :=
      if d = "/generated" then true
      else if pyStartsWith d "/generated" then true else false
    let ffn0 :=
      if d = "/generated" then file
      else if pyStartsWith d "/generated" then
        pyReplace d "/generated" "" ++ "/" ++ file
      else if pyStartsWith d "/" then d ++ "/" ++ file
      else current_dir ++ "/" ++ d ++ "/" ++ file
    match if ugdMode then genLookup env ffn0 else none with
    | some td =>
      let retG := { s.ret with neededGeneratedFiles := insert (ffn0, some d) s.ret.neededGeneratedFiles }
      if pyEndsWith ffn0 ".pb.h" then
        some { s with
          found := true
          ret := retG
          ffn := some ffn0
          ugd := some true }
      else
        some { found := true
               check := true
               ret := retG
               ffn := some (td ++ "/" ++ ffn0)
               ugd := some true
               tmp := some td
               genFull := some ffn0 }
    | none =>
      match env.compilerIncludes.find? (fun cdir =>
          env.fsExists (cdir ++ "/" ++ file) &&
            !env.fsIsDir (cdir ++ "/" ++ file)) with
      | some cdir =>
        let ffn2 := cdir ++ "/" ++ file
        let ret₁ :=
          match env.ccImports.find? (fun imp => imp.hdrs.contains ffn2) with
          | some imp =>
            { s.ret with neededImports := insert imp.id s.ret.neededImports }
          | none => s.ret
        some { s with
          found := true
          ret := ret₁
          ffn := some ffn0
          ugd := some ugdMode }
      | none =>
        if !env.fsExists ffn0 || env.fsIsDir ffn0 then
          dirLoop env file current_dir ds
            { s with
              ffn := some ffn0
              ugd := some ugdMode }
        else
          match env.ccImports.find? (fun imp => imp.hdrs.contains ffn0) with
          | some imp =>
            let retI := { s.ret with neededImports := insert imp.id s.ret.neededImports }
            some { s with
              found := true
              ret := retI
              ffn := some ffn0
              ugd := some ugdMode }
          | none =>
            let ffnR := resolvePath ffn0
            if ugdMode then
              match s.genFull with
              | none => none
              | some gf =>
                let retGF := { s.ret with neededGeneratedFiles := insert ("/generated" ++ gf, some d) s.ret.neededGeneratedFiles }
                some { s with
                  found := true
                  check := true
                  ret := retGF
                  ffn := some ffnR
                  ugd := some true }
            else
              let entry :=
                match env.generatedDir with
                | some g =>
                  if g ≠ "" ∧ d = g then
                    (pyReplace ffnR (g ++ "/") "", some "/generated")
                  else (ffnR, some d)
                | none => (ffnR, some d)
              let retE := { s.ret with foundHeaders := insert entry s.ret.foundHeaders }
              some { s with
                found := true
                check := true
                ret := retE
                ffn := some ffnR
                ugd := some false }

/-- `_findCPPIncludeForFile`, generic in the recursive entry point. -/
def forFile (recurse : CPPRec) (env : CPPEnv) (file : String)
    (includes_dirs : List String) (current_dir : String) (st : CPPState) :
    Option (Bool × CPPIncludes × CPPState) :=
  match dirLoop env file current_dir includes_dirs
      ⟨false, false, CPPIncludes.empty, none, none, none, none⟩ with
  | none => none
  | some s =>
    if s.check then
      match s.ffn, s.ugd with
      | some ffn, some ugd =>
        match recurse ffn includes_dirs ugd st with
        | none => none
        | some (cppInc, st') =>
          if ugd then
            match s.tmp with
            | none => none
            | some td =>
              let moved := (cppInc.foundHeaders.filter
                  (fun e => pyStartsWith e.1 td = true)).image
                (fun e => (pyReplace e.1 td "/generated", e.2))
              let kept := cppInc.foundHeaders.filter
                (fun e => ¬ pyStartsWith e.1 td = true)
              let cppInc₂ : CPPIncludes :=
                { cppInc with
                  foundHeaders := kept
                  neededGeneratedFiles :=
                    cppInc.neededGeneratedFiles ∪ moved }
              some (s.found, s.ret.add cppInc₂, st')
          else some (s.found, s.ret.add cppInc, st')
      | _, _ => none
    else some (s.found, s.ret, st)

/-- `_findCPPIncludeForFileSameDir`, generic in the recursive entry
point. -/
def forFileSameDir (recurse : CPPRec) (env : CPPEnv) (name file : String)
    (includes_dirs : List String) (current_dir : String) (generated : Bool)
    (st : CPPState) : Option (Bool × CPPIncludes × CPPState) :=
  let ffn0 := current_dir ++ "/" ++ file
  if ¬ (env.fsExists ffn0 = true ∧ env.fsIsDir ffn0 = false) then
    some (false, CPPIncludes.empty, st)
  else
    let ffn := resolvePath ffn0
    let retEarly :=
      if generated then
        match env.generatedFiles.find? (fun kv => pyEndsWith name kv.1) with
        | some kv =>
          let ggh := pyReplace (pyReplace name (kv.2 ++ "/") "") (pyBasename kv.1) file
          Sum.inl { CPPIncludes.empty with neededGeneratedFiles := {(ggh, some "/generated")} }
        | none =>
          match env.generatedDir with
          | none => Sum.inr none
          | some g =>
            let tmp := pyReplace ffn (g ++ "/") ""
            Sum.inr (some { CPPIncludes.empty with neededGeneratedFiles := {(tmp, some "/generated")} })
      else
        Sum.inl { CPPIncludes.empty with foundHeaders := {(ffn, none)} }
    match retEarly with
    | Sum.inr none => none
    | Sum.inr (some ret) => some (false, ret, st)
    | Sum.inl ret =>
      match recurse ffn includes_dirs generated st with
      | none => none
      | some (cppInc, st') => some (true, ret.add cppInc, st')

/-- Outcome of the per-line loop of `findCPPIncludes`: an early
`return empty`, or the accumulated record. -/
inductive LoopOut
  | early (r : CPPIncludes) (st : CPPState)
  | done (ret : CPPIncludes) (st : CPPState)

/-- The tail of one line iteration: the compiler-include scan and the
generated-files retry, then the `notFoundHeaders` insertion. -/
def afterFind (recurse : CPPRec) (env : CPPEnv) (file : String)
    (includes_dirs : List String) (current_dir : String) (found : Bool)
    (ret : CPPIncludes) (st : CPPState) :
    Option (Bool × CPPIncludes × CPPState) :=
  if found then some (true, ret, st)
  else
    let foundC := env.compilerIncludes.any (fun d =>
      env.fsExists (d ++ "/" ++ file) && !env.fsIsDir (d ++ "/" ++ file))
    if (genLookup env file).isSome then
      match forFile recurse env file includes_dirs current_dir st with
      | none => none
      | some (_, inc₃, st₃) => some (true, ret.add inc₃, st₃)
    else some (foundC, ret, st)

/-- The `for line in content` loop of `findCPPIncludes`. -/
def lineLoop (recurse : CPPRec) (env : CPPEnv) (name : String)
    (includes_dirs : List String) (generated : Bool) (current_dir : String) :
    List String → CPPIncludes → CPPState → Option LoopOut
  | [], ret, st => some (LoopOut.done ret st)
  | line :: rest, ret, st =>
    match parseIncludeLine line with
    | none => lineLoop recurse env name includes_dirs generated current_dir
        rest ret st
    | some current_include =>
      let file := innerOf current_include
      let step :=
        if pyStartsWith current_include "\"" then
          match forFileSameDir recurse env name file includes_dirs
              current_dir generated st with
          | none => none
          | some (found₁, inc₁, st₁) =>
            if found₁ then some (Sum.inl (true, ret.add inc₁, st₁))
            else if includes_dirs.isEmpty then some (Sum.inr st₁)
            else
              match forFile recurse env file includes_dirs current_dir st₁ with
              | none => none
              | some (found₂, inc₂, st₂) =>
                some (Sum.inl (found₂, ret.add inc₂, st₂))
        else
          if includes_dirs.isEmpty then some (Sum.inr st)
          else
            match forFile recurse env file includes_dirs current_dir st with
            | none => none
            | some (found₂, inc₂, st₂) =>
              some (Sum.inl (found₂, ret.add inc₂, st₂))
      match step with
      | none => none
      | some (Sum.inr stE) => some (LoopOut.early CPPIncludes.empty stE)
      | some (Sum.inl (found₃, ret₃, st₃)) =>
        match afterFind recurse env file includes_dirs current_dir found₃
            ret₃ st₃ with
        | none => none
        | some (found₄, ret₄, st₄) =>
          let ret₅ := if found₄ then ret₄
            else { ret₄ with notFoundHeaders := insert file ret₄.notFoundHeaders }
          lineLoop recurse env name includes_dirs generated current_dir
            rest ret₅ st₄

/-- `cppfileparser.findCPPIncludes`, fuel-indexed. -/
def findCPPIncludes (env : CPPEnv) : Nat → CPPRec
  | 0 => fun _ _ _ _ => none
  | Nat.succ fuel => fun name includes_dirs generated st =>
    match cacheLookup st name with
    | some v => some (v, st)
    | none =>
      if (name, includes_dirs) ∈ st.seen then some (CPPIncludes.empty, st)
      else
        let st₀ : CPPState :=
          { st with seen := st.seen ++ [(name, includes_dirs)] }
        let current_dir := pyDirname (env.absPath name)
        match env.fsLines name with
        | none => none
        | some content =>
          match lineLoop (findCPPIncludes env fuel) env name includes_dirs
              generated current_dir content CPPIncludes.empty st₀ with
          | none => none
          | some (LoopOut.early r st') => some (r, st')
          | some (LoopOut.done ret st') =>
            let retF := { ret with notFoundHeaders := ret.notFoundHeaders.filter (fun x => pyEndsWith x ".pb.h" = false) }
            let ret₂ := if 0 < ret.notFoundHeaders.card then retF else ret
            some (ret₂, { st' with cache := st'.cache ++ [(name, ret₂)] })

/-! ### Claim theorem for findCPPIncludes (C6) -/

/-- No reported not-found header is a protobuf artefact. -/
def noPbh (inc : CPPIncludes) : Prop :=
  ∀ h ∈ inc.notFoundHeaders, pyEndsWith h ".pb.h" = false

/-- Every cached record satisfies `noPbh`. -/
def cacheOk (st : CPPState) : Prop :=
  ∀ k v, (k, v) ∈ st.cache → noPbh v

theorem forFile_preserves {recurse : CPPRec}
    (hrec : ∀ name dirs gen st ret st', cacheOk st →
      recurse name dirs gen st = some (ret, st') → cacheOk st')
    (env : CPPEnv) (file : String) (dirs : List String) (cd : String)
    (st : CPPState) (f : Bool) (inc : CPPIncludes) (st' : CPPState)
    (hst : cacheOk st)
    (h : forFile recurse env file dirs cd st = some (f, inc, st')) :
    cacheOk st' := by
  unfold forFile at h
  cases hd : dirLoop env file cd dirs
      ⟨false, false, CPPIncludes.empty, none, none, none, none⟩ with
  | none => rw [hd] at h; simp at h
  | some s =>
    rw [hd] at h
    dsimp only at h
    by_cases hc : s.check = true
    · rw [if_pos hc] at h
      cases hffn : s.ffn with
      | none => rw [hffn] at h; simp at h
      | some ffn =>
        rw [hffn] at h
        cases hugd : s.ugd with
        | none => rw [hugd] at h; simp at h
        | some ugd =>
          rw [hugd] at h
          dsimp only at h
          cases hr : recurse ffn dirs ugd st with
          | none => rw [hr] at h; simp at h
          | some pr =>
            obtain ⟨cppInc, st₀⟩ := pr
            rw [hr] at h
            dsimp only at h
            have hst₀ : cacheOk st₀ := hrec _ _ _ _ _ _ hst hr
            cases hu : ugd with
            | false =>
              rw [hu] at h
              simp only [Bool.false_eq_true, if_false] at h
              have h' : some (s.found, s.ret.add cppInc, st₀) =
                  some (f, inc, st') := h
              have : st₀ = st' :=
                congrArg (fun t => t.2.2) (Option.some_inj.mp h')
              exact this ▸ hst₀
            | true =>
              rw [hu] at h
              simp only [if_true] at h
              cases htmp : s.tmp with
              | none => rw [htmp] at h; simp at h
              | some td =>
                rw [htmp] at h
                dsimp only at h
                have : st₀ = st' := by
                  have h₂ := Option.some_inj.mp h
                  exact congrArg (fun t => t.2.2) h₂
                exact this ▸ hst₀
    · rw [if_neg hc] at h
      have h' : some (s.found, s.ret, st) = some (f, inc, st') := h
      have : st = st' := congrArg (fun t => t.2.2) (Option.some_inj.mp h')
      exact this ▸ hst

theorem forFileSameDir_preserves {recurse : CPPRec}
    (hrec : ∀ name dirs gen st ret st', cacheOk st →
      recurse name dirs gen st = some (ret, st') → cacheOk st')
    (env : CPPEnv) (name file : String) (dirs : List String) (cd : String)
    (generated : Bool) (st : CPPState) (f : Bool) (inc : CPPIncludes)
    (st' : CPPState) (hst : cacheOk st)
    (h : forFileSameDir recurse env name file dirs cd generated st =
      some (f, inc, st')) : cacheOk st' := by
  unfold forFileSameDir at h
  dsimp only at h
  split_ifs at h with hg hgen
  · cases hfind : env.generatedFiles.find? (fun kv => pyEndsWith name kv.1)
        with
    | some kv =>
      rw [hfind] at h
      dsimp only at h
      cases hr : recurse (resolvePath (cd ++ "/" ++ file)) dirs generated st
          with
      | none => rw [hr] at h; simp at h
      | some pr =>
        obtain ⟨cppInc, st₀⟩ := pr
        rw [hr] at h
        dsimp only at h
        have hst₀ : cacheOk st₀ := hrec _ _ _ _ _ _ hst hr
        have : st₀ = st' := congrArg (fun t => t.2.2) (Option.some_inj.mp h)
        exact this ▸ hst₀
    | none =>
      rw [hfind] at h
      dsimp only at h
      cases hgd : env.generatedDir with
      | none => rw [hgd] at h; simp at h
      | some g =>
        rw [hgd] at h
        dsimp only at h
        have : st = st' := congrArg (fun t => t.2.2) (Option.some_inj.mp h)
        exact this ▸ hst
  · cases hr : recurse (resolvePath (cd ++ "/" ++ file)) dirs generated st
        with
    | none => rw [hr] at h; simp at h
    | some pr =>
      obtain ⟨cppInc, st₀⟩ := pr
      rw [hr] at h
      dsimp only at h
      have hst₀ : cacheOk st₀ := hrec _ _ _ _ _ _ hst hr
      have : st₀ = st' := congrArg (fun t => t.2.2) (Option.some_inj.mp h)
      exact this ▸ hst₀
  · have : st = st' := congrArg (fun t => t.2.2) (Option.some_inj.mp h)
    exact this ▸ hst

theorem afterFind_preserves {recurse : CPPRec}
    (hrec : ∀ name dirs gen st ret st', cacheOk st →
      recurse name dirs gen st = some (ret, st') → cacheOk st')
    (env : CPPEnv) (file : String) (dirs : List String) (cd : String)
    (found : Bool) (ret : CPPIncludes) (st : CPPState) (f : Bool)
    (inc : CPPIncludes) (st' : CPPState) (hst : cacheOk st)
    (h : afterFind recurse env file dirs cd found ret st =
      some (f, inc, st')) : cacheOk st' := by
  unfold afterFind at h
  split_ifs at h
  · have : st = st' := congrArg (fun t => t.2.2) (Option.some_inj.mp h)
    exact this ▸ hst
  · cases hr : forFile recurse env file dirs cd st with
    | none => rw [hr] at h; simp at h
    | some pr =>
      obtain ⟨f₃, inc₃, st₃⟩ := pr
      rw [hr] at h
      have hst₃ : cacheOk st₃ :=
        forFile_preserves hrec env file dirs cd st f₃ inc₃ st₃ hst hr
      have : st₃ = st' := congrArg (fun t => t.2.2) (Option.some_inj.mp h)
      exact this ▸ hst₃
  · have : st = st' := congrArg (fun t => t.2.2) (Option.some_inj.mp h)
    exact this ▸ hst

theorem lineLoop_preserves {recurse : CPPRec}
    (hrec : ∀ name dirs gen st ret st', cacheOk st →
      recurse name dirs gen st = some (ret, st') → cacheOk st')
    (env : CPPEnv) (name : String) (dirs : List String) (generated : Bool)
    (cd : String) :
    ∀ (content : List String) (ret : CPPIncludes) (st : CPPState)
      (out : LoopOut), cacheOk st →
      lineLoop recurse env name dirs generated cd content ret st = some out →
      (∀ r st', out = LoopOut.early r st' → noPbh r ∧ cacheOk st') ∧
      (∀ ret' st', out = LoopOut.done ret' st' → cacheOk st') := by
  intro content
  induction content with
  | nil =>
    intro ret st out hst h
    unfold lineLoop at h
    have hout : LoopOut.done ret st = out := Option.some_inj.mp h
    constructor
    · intro r st' hEq
      rw [← hout] at hEq
      exact absurd hEq (by intro hcon; cases hcon)
    · intro ret' st' hEq
      rw [← hout] at hEq
      cases hEq
      exact hst
  | cons line rest ih =>
    intro ret st out hst h
    unfold lineLoop at h
    cases hp : parseIncludeLine line with
    | none =>
      rw [hp] at h
      exact ih ret st out hst h
    | some current_include =>
      rw [hp] at h
      dsimp only at h
      set file := innerOf current_include with hfile
      cases hstep : (if pyStartsWith current_include "\"" then
          match forFileSameDir recurse env name file dirs cd generated st with
          | none => none
          | some (found₁, inc₁, st₁) =>
            if found₁ then some (Sum.inl (true, ret.add inc₁, st₁))
            else if dirs.isEmpty then some (Sum.inr st₁)
            else
              match forFile recurse env file dirs cd st₁ with
              | none => none
              | some (found₂, inc₂, st₂) =>
                some (Sum.inl (found₂, ret.add inc₂, st₂))
        else
          if dirs.isEmpty then some (Sum.inr st)
          else
            match forFile recurse env file dirs cd st with
            | none => none
            | some (found₂, inc₂, st₂) =>
              some (Sum.inl (found₂, ret.add inc₂, st₂))) with
      | none => rw [hstep] at h; simp at h
      | some stepv =>
        rw [hstep] at h
        have hstepState : ∀ fv rv sv, stepv = Sum.inl (fv, rv, sv) →
            cacheOk sv := by
          intro fv rv sv hEq
          subst hEq
          by_cases hq : pyStartsWith current_include "\"" = true
          · rw [if_pos hq] at hstep
            cases hsd : forFileSameDir recurse env name file dirs cd
                generated st with
            | none => rw [hsd] at hstep; simp at hstep
            | some pr =>
              obtain ⟨found₁, inc₁, st₁⟩ := pr
              rw [hsd] at hstep
              dsimp only at hstep
              have hst₁ : cacheOk st₁ :=
                forFileSameDir_preserves hrec env name file dirs cd generated
                  st found₁ inc₁ st₁ hst hsd
              by_cases hf₁ : found₁ = true
              · rw [if_pos hf₁] at hstep
                have := Option.some_inj.mp hstep
                have hsv : st₁ = sv := by
                  have := congrArg (fun x => match x with
                    | Sum.inl t => t.2.2
                    | Sum.inr s => s) this
                  simpa using this
                exact hsv ▸ hst₁
              · rw [if_neg hf₁] at hstep
                by_cases hde : dirs.isEmpty = true
                · rw [if_pos hde] at hstep
                  have := Option.some_inj.mp hstep
                  exact absurd this (by intro hcon; cases hcon)
                · rw [if_neg hde] at hstep
                  cases hff : forFile recurse env file dirs cd st₁ with
                  | none => rw [hff] at hstep; simp at hstep
                  | some pr₂ =>
                    obtain ⟨found₂, inc₂, st₂⟩ := pr₂
                    rw [hff] at hstep
                    dsimp only at hstep
                    have hst₂ : cacheOk st₂ :=
                      forFile_preserves hrec env file dirs cd st₁ found₂ inc₂
                        st₂ hst₁ hff
                    have := Option.some_inj.mp hstep
                    have hsv : st₂ = sv := by
                      have := congrArg (fun x => match x with
                        | Sum.inl t => t.2.2
                        | Sum.inr s => s) this
                      simpa using this
                    exact hsv ▸ hst₂
          · rw [if_neg hq] at hstep
            by_cases hde : dirs.isEmpty = true
            · rw [if_pos hde] at hstep
              have := Option.some_inj.mp hstep
              exact absurd this (by intro hcon; cases hcon)
            · rw [if_neg hde] at hstep
              cases hff : forFile recurse env file dirs cd st with
              | none => rw [hff] at hstep; simp at hstep
              | some pr₂ =>
                obtain ⟨found₂, inc₂, st₂⟩ := pr₂
                rw [hff] at hstep
                dsimp only at hstep
                have hst₂ : cacheOk st₂ :=
                  forFile_preserves hrec env file dirs cd st found₂ inc₂
                    st₂ hst hff
                have := Option.some_inj.mp hstep
                have hsv : st₂ = sv := by
                  have := congrArg (fun x => match x with
                    | Sum.inl t => t.2.2
                    | Sum.inr s => s) this
                  simpa using this
                exact hsv ▸ hst₂
        have hstepEarly : ∀ sv, stepv = Sum.inr sv → cacheOk sv := by
          intro sv hEq
          subst hEq
          by_cases hq : pyStartsWith current_include "\"" = true
          · rw [if_pos hq] at hstep
            cases hsd : forFileSameDir recurse env name file dirs cd
                generated st with
            | none => rw [hsd] at hstep; simp at hstep
            | some pr =>
              obtain ⟨found₁, inc₁, st₁⟩ := pr
              rw [hsd] at hstep
              dsimp only at hstep
              have hst₁ : cacheOk st₁ :=
                forFileSameDir_preserves hrec env name file dirs cd generated
                  st found₁ inc₁ st₁ hst hsd
              by_cases hf₁ : found₁ = true
              · rw [if_pos hf₁] at hstep
                have := Option.some_inj.mp hstep
                exact absurd this (by intro hcon; cases hcon)
              · rw [if_neg hf₁] at hstep
                by_cases hde : dirs.isEmpty = true
                · rw [if_pos hde] at hstep
                  have := Option.some_inj.mp hstep
                  have hsv : st₁ = sv := by cases this; rfl
                  exact hsv ▸ hst₁
                · rw [if_neg hde] at hstep
                  cases hff : forFile recurse env file dirs cd st₁ with
                  | none => rw [hff] at hstep; simp at hstep
                  | some pr₂ =>
                    obtain ⟨found₂, inc₂, st₂⟩ := pr₂
                    rw [hff] at hstep
                    dsimp only at hstep
                    have := Option.some_inj.mp hstep
                    exact absurd this (by intro hcon; cases hcon)
          · rw [if_neg hq] at hstep
            by_cases hde : dirs.isEmpty = true
            · rw [if_pos hde] at hstep
              have := Option.some_inj.mp hstep
              have hsv : st = sv := by cases this; rfl
              exact hsv ▸ hst
            · rw [if_neg hde] at hstep
              cases hff : forFile recurse env file dirs cd st with
              | none => rw [hff] at hstep; simp at hstep
              | some pr₂ =>
                obtain ⟨found₂, inc₂, st₂⟩ := pr₂
                rw [hff] at hstep
                dsimp only at hstep
                have := Option.some_inj.mp hstep
                exact absurd this (by intro hcon; cases hcon)
        cases stepv with
        | inr stE =>
          dsimp only at h
          have hout : LoopOut.early CPPIncludes.empty stE = out :=
            Option.some_inj.mp h
          constructor
          · intro r st' hEq
            rw [← hout] at hEq
            cases hEq
            exact ⟨by intro x hx; simp [CPPIncludes.empty] at hx,
              hstepEarly stE rfl⟩
          · intro ret' st' hEq
            rw [← hout] at hEq
            exact absurd hEq (by intro hcon; cases hcon)
        | inl triple =>
          obtain ⟨found₃, ret₃, st₃⟩ := triple
          dsimp only at h
          have hst₃ : cacheOk st₃ := hstepState found₃ ret₃ st₃ rfl
          cases haf : afterFind recurse env file dirs cd found₃ ret₃ st₃ with
          | none => rw [haf] at h; simp at h
          | some pr₄ =>
            obtain ⟨found₄, ret₄, st₄⟩ := pr₄
            rw [haf] at h
            dsimp only at h
            have hst₄ : cacheOk st₄ :=
              afterFind_preserves hrec env file dirs cd found₃ ret₃ st₃
                found₄ ret₄ st₄ hst₃ haf
            exact ih _ st₄ out hst₄ h

/-- Claim C6 (confirmed).  Whenever `findCPPIncludes` returns a record, its
`notFoundHeaders` set contains no entry ending in `.pb.h`: a `.pb.h` filter
is applied before the record is returned and cached, the other return paths
yield the (filtered) cached record or an empty one, and every record stored
in the cache stays filtered; an unresolved header is only accumulated, never
raised. -/
theorem findCPPIncludes_no_pbh :
    ∀ (fuel : Nat) (env : CPPEnv) (name : String) (dirs : List String)
      (generated : Bool) (st : CPPState) (ret : CPPIncludes)
      (st' : CPPState), cacheOk st →
      findCPPIncludes env fuel name dirs generated st = some (ret, st') →
      noPbh ret ∧ cacheOk st' := by
  intro fuel
  induction fuel with
  | zero =>
    intro env name dirs generated st ret st' _ h
    exact absurd h (by simp [findCPPIncludes])
  | succ f ihf =>
    intro env name dirs generated st ret st' hst h
    unfold findCPPIncludes at h
    cases hcl : cacheLookup st name with
    | some v =>
      rw [hcl] at h
      have h' := Option.some_inj.mp h
      have hv : v = ret := congrArg Prod.fst h'
      have hs : st = st' := congrArg Prod.snd h'
      have hvmem : (name, v) ∈ st.cache := by
        unfold cacheLookup at hcl
        cases hf2 : st.cache.find? (fun p => p.1 = name) with
        | none => rw [hf2] at hcl; exact absurd hcl (by simp)
        | some p =>
          rw [hf2] at hcl
          have hp : p ∈ st.cache := List.mem_of_find?_eq_some hf2
          have hk : p.1 = name := by simpa using List.find?_some hf2
          have hv2 : p.2 = v := by simpa using hcl
          rw [← hk, ← hv2]
          exact hp
      exact ⟨hv ▸ hst name v hvmem, hs ▸ hst⟩
    | none =>
      rw [hcl] at h
      by_cases hseen : (name, dirs) ∈ st.seen
      · rw [if_pos hseen] at h
        have h' := Option.some_inj.mp h
        have hv : CPPIncludes.empty = ret := congrArg Prod.fst h'
        have hs : st = st' := congrArg Prod.snd h'
        refine ⟨?_, hs ▸ hst⟩
        rw [← hv]
        intro x hx
        simp [CPPIncludes.empty] at hx
      · rw [if_neg hseen] at h
        cases hlines : env.fsLines name with
        | none => rw [hlines] at h; simp at h
        | some content =>
          rw [hlines] at h
          dsimp only at h
          have hst₀ : cacheOk { st with
              seen := st.seen ++ [(name, dirs)] } := hst
          have hrec : ∀ nm ds gen s r s', cacheOk s →
              findCPPIncludes env f nm ds gen s = some (r, s') →
              cacheOk s' := by
            intro nm ds gen s r s' hs hcall
            exact (ihf env nm ds gen s r s' hs hcall).2
          cases hll : lineLoop (findCPPIncludes env f) env name dirs generated
              (pyDirname (env.absPath name)) content CPPIncludes.empty
              { st with seen := st.seen ++ [(name, dirs)] } with
          | none => rw [hll] at h; simp at h
          | some out =>
            rw [hll] at h
            have hlp := lineLoop_preserves hrec env name dirs generated
              (pyDirname (env.absPath name)) content CPPIncludes.empty
              { st with seen := st.seen ++ [(name, dirs)] } out hst₀ hll
            cases out with
            | early r stE =>
              dsimp only at h
              have h' := Option.some_inj.mp h
              have hv : r = ret := congrArg Prod.fst h'
              have hs : stE = st' := congrArg Prod.snd h'
              obtain ⟨hpb, hok⟩ := hlp.1 r stE rfl
              exact ⟨hv ▸ hpb, hs ▸ hok⟩
            | done retD stD =>
              dsimp only at h
              have hokD : cacheOk stD := hlp.2 retD stD rfl
              have hnoPbhD : noPbh (if 0 < retD.notFoundHeaders.card then
                  { retD with notFoundHeaders := retD.notFoundHeaders.filter (fun x => pyEndsWith x ".pb.h" = false) }
                  else retD) := by
                split_ifs with hcard
                · intro x hx
                  exact (Finset.mem_filter.mp hx).2
                · intro x hx
                  have hempty : retD.notFoundHeaders = ∅ :=
                    Finset.card_eq_zero.mp (Nat.eq_zero_of_not_pos hcard)
                  rw [hempty] at hx
                  exact absurd hx (Finset.not_mem_empty x)
              rw [Option.some_inj, Prod.mk.injEq] at h
              obtain ⟨h₁, h₂⟩ := h
              subst h₁
              subst h₂
              refine ⟨hnoPbhD, ?_⟩
              intro k v hkv
              simp only [List.mem_append, List.mem_singleton] at hkv
              rcases hkv with hkv | hkv
              · exact hokD k v hkv
              · have hv : v = _ := congrArg Prod.snd hkv
                rw [hv]
                exact hnoPbhD

/-- A minimal filesystem oracle: `f.cpp` exists with no lines. -/
def envW : CPPEnv :=
  { fsExists := fun _ => false
    fsIsDir := fun _ => false
    fsLines := fun _ => some []
    absPath := fun s => s
    compilerIncludes := []
    ccImports := []
    generatedFiles := []
    generatedDir := none }

theorem findCPPIncludes_no_pbh_witness :
    cacheOk ⟨[], []⟩ ∧
      (noPbh CPPIncludes.empty ∧
        cacheOk ⟨[("f.cpp", CPPIncludes.empty)], [("f.cpp", [])]⟩) :=
  ⟨fun _ v hkv => absurd hkv (List.not_mem_nil _),
    findCPPIncludes_no_pbh 1 envW "f.cpp" [] false ⟨[], []⟩
      CPPIncludes.empty ⟨[("f.cpp", CPPIncludes.empty)], [("f.cpp", [])]⟩
      (fun _ v hkv => absurd hkv (List.not_mem_nil _)) (by rfl)⟩

end N2B
